import Mathlib

/-!
Verification of the airline reservation backend (`backend.py`): the route
graph with its breadth-first and bounded-cheapest searches, the itinerary
resolver, the booking and cancellation transactions over an explicit
datastore state, and the airport-code trie.  Airport codes are modelled by
an arbitrary type `α` with decidable equality (the Python code is dynamically
typed and only compares codes for equality / dict membership).
-/

set_option linter.unusedSectionVars false

namespace Airline

variable {α : Type} [DecidableEq α]

/-! ## Route graph (`build_graph`)

The Python graph is an insertion-ordered dict `{origin: [destinations]}`;
we model it as an association list. -/

abbrev Graph (α : Type) := List (α × List α)

/-- One step of `build_graph`'s loop body: `graph[origin].append(destination)`,
creating the key with `[]` first when absent. -/
def addRoute : Graph α → α → α → Graph α
  | [], o, d => [(o, [d])]
  | (k, vs) :: rest, o, d =>
    if k = o then (k, vs ++ [d]) :: rest else (k, vs) :: addRoute rest o d

/-- `build_graph(routes)` from `backend.py`. -/
def build_graph (routes : List (α × α)) : Graph α :=
  routes.foldl (fun g od => addRoute g od.1 od.2) []

/-- `graph.get(node, [])`. -/
def adjList : Graph α → α → List α
  | [], _ => []
  | (k, vs) :: rest, v => if k = v then vs else adjList rest v

/-- The dict's key list: `node in graph` is membership here. -/
def graphKeys (g : Graph α) : List α := g.map Prod.fst

/-- All destinations occurring in adjacency lists (used to bound the
number of loop iterations of the breadth-first search). -/
def nodeTargets : Graph α → List α
  | [] => []
  | (_, vs) :: rest => vs ++ nodeTargets rest

/-! ## Breadth-first shortest path (`bfs_shortest_path`)

The queue holds paths; we store each path reversed (head = the path's
current endpoint, Python's `path[-1]`) and reverse it on return.
One fuel unit is spent per `while queue` iteration; `bfs_shortest_path`
supplies more fuel than the loop can ever use, since every enqueue after
the first adds a fresh node of `nodeTargets` to `visited`. -/

/-- The inner `for neighbor in graph.get(node, [])` loop: extends the
queue/visited pair with each not-yet-visited neighbour. -/
def expandNode (rp : List α) : List α → List (List α) × List α →
    List (List α) × List α
  | [], qv => qv
  | nb :: rest, (q, v) =>
    if nb ∈ v then expandNode rp rest (q, v)
    else expandNode rp rest (q ++ [nb :: rp], v ++ [nb])

def bfsLoop (g : Graph α) (dest : α) :
    Nat → List (List α) → List α → Option (List α)
  | 0, _, _ => none
  | _ + 1, [], _ => none
  | fuel + 1, rp :: queue, visited =>
    match rp with
    | [] => none
    | node :: _ =>
      if node = dest then some rp.reverse
      else
        let s := expandNode rp (adjList g node) (queue, visited)
        bfsLoop g dest fuel s.1 s.2

/-- `bfs_shortest_path(graph, origin, destination)` from `backend.py`. -/
def bfs_shortest_path (g : Graph α) (origin destination : α) : Option (List α) :=
  if origin ∈ graphKeys g ∧ destination ∈ graphKeys g then
    bfsLoop g destination (2 + 2 * (nodeTargets g).length) [[origin]] [origin]
  else none

/-! ## Flight legs and the itinerary resolver (`get_flight_details_for_route`) -/

structure Flight (α : Type) where
  flight_id : Nat
  origin : α
  destination : α
  price : Nat
  available_seats : Int
  deriving DecidableEq

/-- The consecutive pairs `(route[i], route[i+1])` of a route. -/
def routePairs : List α → List (α × α)
  | a :: b :: rest => (a, b) :: routePairs (b :: rest)
  | _ => []

/-- The SQL query `SELECT * FROM flights WHERE (origin = .. AND destination = ..) OR ...`:
every row matching some consecutive pair of the route, in table order. -/
def routeQuery (flights : List (Flight α)) (r : List α) : List (Flight α) :=
  flights.filter
    (fun f => (routePairs r).any
      (fun p => decide (f.origin = p.1) && decide (f.destination = p.2)))

/-- `df[(df.origin == o) & (df.destination == d)].iloc[0]`: the first row
for the pair, if any. -/
def findLeg : List (Flight α) → α → α → Option (Flight α)
  | [], _, _ => none
  | f :: rest, o, d =>
    if f.origin = o ∧ f.destination = d then some f else findLeg rest o d

/-- The resolver's per-segment loop: breaks with `ok = False` at the first
pair with no row or a first row with zero seats, returning whatever was
accumulated so far. -/
def resolveLoop (df : List (Flight α)) :
    List (α × α) → List (Flight α) → Nat → List (Flight α) × Nat × Bool
  | [], acc, total => (acc, total, true)
  | (o, d) :: rest, acc, total =>
    match findLeg df o d with
    | none => (acc, total, false)
    | some f =>
      if f.available_seats = 0 then (acc, total, false)
      else resolveLoop df rest (acc ++ [f]) (total + f.price)

/-- The body of `get_flight_details_for_route` for an actual list argument
of length ≥ 2 (the datastore is the `flights` table, passed explicitly). -/
def getFlightDetails (flights : List (Flight α)) (r : List α) :
    List (Flight α) × Nat × Bool :=
  if r.length < 2 then ([], 0, true)
  else
    let df := routeQuery flights r
    if df.length < r.length - 1 then ([], 0, false)
    else resolveLoop df (routePairs r) [] 0

/-- `get_flight_details_for_route(route)`: `not route` is true for Python's
`None` and for the empty list, and both fall into the `len(route) < 2`
early return. -/
def get_flight_details_for_route (flights : List (Flight α)) :
    Option (List α) → List (Flight α) × Nat × Bool
  | none => ([], 0, true)
  | some r => getFlightDetails flights r

/-! ## Bounded-cheapest search (`find_cheapest_route`)

The recursion depth is bounded by the `len(path) - 1 > max_stops` guard, so
supplying `max_stops + 2` fuel units never exhausts (each nested call grows
the path by one vertex). -/

/-- `total < best['price']`, with `best['price']` initially infinite. -/
def betterTotal (total : Nat) : Option (List α × Nat) → Bool
  | none => true
  | some (_, p) => decide (total < p)

def cheapDfs (flights : List (Flight α)) (g : Graph α) (dest : α) (maxStops : Nat) :
    Nat → α → List α → Option (List α × Nat) → Option (List α × Nat)
  | 0, _, _, best => best
  | fuel + 1, node, path, best =>
    if maxStops < path.length - 1 then best
    else if node = dest then
      if (getFlightDetails flights path).2.2 &&
          betterTotal (getFlightDetails flights path).2.1 best then
        some (path, (getFlightDetails flights path).2.1)
      else best
    else
      (adjList g node).foldl
        (fun b nb =>
          if nb ∈ path then b
          else cheapDfs flights g dest maxStops fuel nb (path ++ [nb]) b)
        best

/-- `find_cheapest_route(graph, origin, destination, max_stops=3)` from
`backend.py`. -/
def find_cheapest_route (flights : List (Flight α)) (g : Graph α)
    (origin destination : α) (maxStops : Nat := 3) : Option (List α) × Nat :=
  if origin ∈ graphKeys g ∧ destination ∈ graphKeys g then
    match cheapDfs flights g destination maxStops (maxStops + 2) origin [origin] none with
    | some (r, p) => (some r, p)
    | none => (none, 0)
  else (none, 0)

/-! ## The datastore state and the booking / cancellation transactions

The MySQL tables touched by `save_booking` and `cancel_booking_in_db`,
with the auto-increment counters made explicit.  `available_seats` is an
`Int`: the SQL column is a signed integer and the code never clamps it. -/

structure UserRow where
  user_id : Nat
  first_name : String
  last_name : String
  email : String
  deriving DecidableEq

structure BookingRow where
  booking_id : Nat
  user_id : Nat
  total_price : Nat
  status : String
  travel_purpose : Option String
  deriving DecidableEq

structure PassengerRow where
  booking_id : Nat
  first_name : String
  last_name : String
  age : Nat
  deriving DecidableEq

structure BookingFlightRow where
  booking_id : Nat
  flight_id : Nat
  num_passengers : Nat
  deriving DecidableEq

structure UserDetails where
  first_name : String
  last_name : String
  email : String
  travel_purpose : Option String
  deriving DecidableEq

structure PassengerInput where
  first_name : String
  last_name : String
  age : Nat
  deriving DecidableEq

structure DBState (α : Type) where
  flights : List (Flight α)
  users : List UserRow
  bookings : List BookingRow
  passengers : List PassengerRow
  booking_flights : List BookingFlightRow
  nextUserId : Nat
  nextBookingId : Nat
  deriving DecidableEq

/-- `SELECT available_seats FROM flights WHERE flight_id = fid` (first row). -/
def seatsOf : List (Flight α) → Nat → Option Int
  | [], _ => none
  | f :: rest, fid =>
    if f.flight_id = fid then some f.available_seats else seatsOf rest fid

/-- The verification loop of `save_booking`: locks each leg in the order the
flight ids are listed, stopping at the first leg that is missing or has
fewer seats than passengers.  Returns the sequence of leg ids actually
locked (`SELECT .. FOR UPDATE` order) and whether every check passed. -/
def verifyLegs (flights : List (Flight α)) (numPax : Nat) :
    List Nat → List Nat × Bool
  | [] => ([], true)
  | fid :: rest =>
    match seatsOf flights fid with
    | none => ([fid], false)
    | some s =>
      if s < (numPax : Int) then ([fid], false)
      else
        let r := verifyLegs flights numPax rest
        (fid :: r.1, r.2)

/-- `UPDATE flights SET available_seats = available_seats - n WHERE flight_id = fid`. -/
def decrementSeats (flights : List (Flight α)) (fid : Nat) (n : Nat) :
    List (Flight α) :=
  flights.map fun f =>
    if f.flight_id = fid then { f with available_seats := f.available_seats - n } else f

/-- The decrement loop of `save_booking` (one `UPDATE` per listed flight id,
so a repeated id is decremented once per occurrence). -/
def applyDecrements (flights : List (Flight α)) (fids : List Nat) (n : Nat) :
    List (Flight α) :=
  fids.foldl (fun fs fid => decrementSeats fs fid n) flights

/-- `UPDATE flights SET available_seats = available_seats + n WHERE flight_id = fid`. -/
def incrementSeats (flights : List (Flight α)) (fid : Nat) (n : Nat) :
    List (Flight α) :=
  flights.map fun f =>
    if f.flight_id = fid then { f with available_seats := f.available_seats + n } else f

/-- First user row with the given (unique-key) email. -/
def findUserByEmail : List UserRow → String → Option UserRow
  | [], _ => none
  | u :: rest, e => if u.email = e then some u else findUserByEmail rest e

/-- `INSERT INTO users .. ON DUPLICATE KEY UPDATE user_id = LAST_INSERT_ID(user_id),
first_name = VALUES(first_name)`: reuses the row keyed by email (refreshing
its first name) or creates a fresh one; yields the user id either way. -/
def upsertUser (users : List UserRow) (nextId : Nat) (ud : UserDetails) :
    Nat × List UserRow × Nat :=
  match findUserByEmail users ud.email with
  | some u =>
    (u.user_id,
     users.map (fun v => if v.email = ud.email then { v with first_name := ud.first_name } else v),
     nextId)
  | none =>
    (nextId, users ++ [⟨nextId, ud.first_name, ud.last_name, ud.email⟩], nextId + 1)

/-- `save_booking(user_details, passenger_list, flight_ids, total_price)` from
`backend.py`.  The whole body runs in one transaction: a failed seat check
rolls back (the state is returned unchanged), otherwise every mutation
commits together. -/
def save_booking (ud : UserDetails) (passengerList : List PassengerInput)
    (flightIds : List Nat) (totalPrice : Nat) (st : DBState α) :
    (Option Nat × String) × DBState α :=
  let numPax := passengerList.length
  if (verifyLegs st.flights numPax flightIds).2 = false then
    ((none, "Not enough seats"), st)
  else
    let flights' := applyDecrements st.flights flightIds numPax
    let u := upsertUser st.users st.nextUserId ud
    let bid := st.nextBookingId
    ((some bid, "Booking successful!"),
     { flights := flights'
       users := u.2.1
       bookings := st.bookings ++ [⟨bid, u.1, totalPrice, "CONFIRMED", ud.travel_purpose⟩]
       passengers := st.passengers ++
         passengerList.map (fun p => ⟨bid, p.first_name, p.last_name, p.age⟩)
       booking_flights := st.booking_flights ++
         flightIds.map (fun fid => ⟨bid, fid, numPax⟩)
       nextUserId := u.2.2
       nextBookingId := st.nextBookingId + 1 })

/-- `cancel_booking_in_db(booking_id, user_email)` from `backend.py`: credits
back `num_passengers` for every `booking_flights` row of the booking and
sets the booking's status to CANCELLED — with no check of the current
status.  (The booking-cache invalidation touches no table.) -/
def cancel_booking_in_db (bookingId : Nat) (st : DBState α) : Bool × DBState α :=
  let rows := st.booking_flights.filter (fun r => decide (r.booking_id = bookingId))
  let flights' := rows.foldl
    (fun fs r => incrementSeats fs r.flight_id r.num_passengers) st.flights
  let bookings' := st.bookings.map fun b =>
    if b.booking_id = bookingId then { b with status := "CANCELLED" } else b
  (true, { st with flights := flights', bookings := bookings' })

/-! ## Airport-code trie (`Trie` / `build_airport_trie`)

Children are an insertion-ordered association list (the Python dict).
A node carries `is_end_of_word` and, when terminal, the completed word. -/

inductive TrieNode (α : Type) where
  | mk : List (α × TrieNode α) → Bool → Option (List α) → TrieNode α

def TrieNode.children : TrieNode α → List (α × TrieNode α)
  | .mk c _ _ => c

def TrieNode.isEnd : TrieNode α → Bool
  | .mk _ e _ => e

def TrieNode.word : TrieNode α → Option (List α)
  | .mk _ _ w => w

def emptyNode : TrieNode α := .mk [] false none

def childLookup : List (α × TrieNode α) → α → Option (TrieNode α)
  | [], _ => none
  | (c, t) :: rest, x => if c = x then some t else childLookup rest x

def childUpdate (x : α) (tNew : TrieNode α) :
    List (α × TrieNode α) → List (α × TrieNode α)
  | [] => []
  | (c, t) :: rest =>
    if c = x then (c, tNew) :: rest else (c, t) :: childUpdate x tNew rest

/-- `Trie.insert(word)`, walking down the remaining characters; at the end
the node becomes terminal and records the full word. -/
def insertAux (w : List α) : TrieNode α → List α → TrieNode α
  | .mk ch _ _, [] => .mk ch true (some w)
  | .mk ch e wd, c :: rest =>
    match childLookup ch c with
    | some child => .mk (childUpdate c (insertAux w child rest) ch) e wd
    | none => .mk (ch ++ [(c, insertAux w emptyNode rest)]) e wd

def trieInsert (t : TrieNode α) (w : List α) : TrieNode α := insertAux w t w

/-- `build_airport_trie(airports)`. -/
def build_airport_trie (ws : List (List α)) : TrieNode α :=
  ws.foldl trieInsert emptyNode

/-- `Trie._collect_all_words`: the node's own word when terminal (a terminal
node built by `insert` always carries one), then each child subtree in
dict-insertion order. -/
def collectWords : TrieNode α → List (List α)
  | .mk ch e wd =>
    (if e then wd.toList else []) ++ collectChildren ch
where
  collectChildren : List (α × TrieNode α) → List (List α)
    | [] => []
    | (_, t) :: rest => collectWords t ++ collectChildren rest

/-- Walking the trie down a whole query string (the lookup loop of
`get_suggestions`, which returns `[]` when a character is missing). -/
def walkTrie : TrieNode α → List α → Option (TrieNode α)
  | t, [] => some t
  | t, c :: rest =>
    match childLookup t.children c with
    | none => none
    | some child => walkTrie child rest

/-- `Trie.get_suggestions(prefix)` from `backend.py`. -/
def get_suggestions (t : TrieNode α) (p : List α) : List (List α) :=
  match walkTrie t p with
  | none => []
  | some n => collectWords n

/-! ## Derived notions used in the statements -/

/-- The per-leg check of `save_booking`'s verification loop: the leg exists
and has at least `numPax` seats. -/
def legOk (flights : List (Flight α)) (numPax : Nat) (fid : Nat) : Bool :=
  match seatsOf flights fid with
  | none => false
  | some s => decide (¬ s < (numPax : Int))

/-- A consecutive pair the resolver cannot serve: no row for the pair, or
the first row has zero seats (the code's exact break criterion). -/
def segmentFails (flights : List (Flight α)) (p : α × α) : Bool :=
  match findLeg flights p.1 p.2 with
  | none => true
  | some f => decide (f.available_seats = 0)

/-- Status of the first booking row with the given id. -/
def statusOf : List BookingRow → Nat → Option String
  | [], _ => none
  | b :: rest, bid => if b.booking_id = bid then some b.status else statusOf rest bid

/-- Total `num_passengers` the given association rows record for one leg. -/
def creditFor (rows : List BookingFlightRow) (fid : Nat) : Nat :=
  ((rows.filter (fun r => decide (r.flight_id = fid))).map
    (fun r => r.num_passengers)).sum

/-- Sum of the prices of a list of legs. -/
def sumPrices (legs : List (Flight α)) : Nat := (legs.map Flight.price).sum

/-- A route that is an actual chain of graph edges from `o` to `d`. -/
def ValidPath (g : Graph α) (o d : α) (p : List α) : Prop :=
  p.head? = some o ∧ p.getLast? = some d ∧
    List.Chain' (fun u v => v ∈ adjList g u) p

/-- A breadth-first queue entry: a reversed path (head = Python's
`path[-1]`, the endpoint) chaining backwards to the search origin. -/
def RPathFrom (g : Graph α) (o : α) (rp : List α) : Prop :=
  rp ≠ [] ∧ rp.getLast? = some o ∧
    List.Chain' (fun u v => u ∈ adjList g v) rp

/-- The loop invariant of `bfsLoop` relating the queue and the visited set:
queue entries are reversed paths from the origin over visited nodes, queue
lengths are nondecreasing and spread over at most two consecutive levels,
every queued path is a shortest path to its endpoint, every node strictly
closer than the current level is visited, every visited node is pending in
the queue or fully expanded, and the destination, once visited, stays
pending until popped. -/
structure BfsInv (g : Graph α) (o d : α) (Q : List (List α)) (V : List α) :
    Prop where
  paths : ∀ rp ∈ Q, RPathFrom g o rp ∧ ∀ x ∈ rp, x ∈ V
  sorted : List.Pairwise (fun a b => List.length a ≤ List.length b) Q
  levels : ∀ rp ∈ Q, ∀ rq ∈ Q, rq.length ≤ rp.length + 1
  shortest : ∀ rp ∈ Q, ∀ v, rp.head? = some v →
    ∀ q, ValidPath g o v q → rp.length ≤ q.length
  minv : ∀ rp, Q.head? = some rp → ∀ v q, ValidPath g o v q →
    q.length < rp.length → v ∈ V
  expanded : ∀ v ∈ V, (∃ rp ∈ Q, rp.head? = some v) ∨
    ∀ nb ∈ adjList g v, nb ∈ V
  origin_mem : o ∈ V
  dest_pending : d ∈ V → ∃ rp ∈ Q, rp.head? = some d

/-- Structural membership of a word in a (sub)trie: walking the word's
characters succeeds and ends at a terminal node. -/
def containsW : TrieNode α → List α → Prop
  | t, [] => t.isEnd = true
  | t, c :: rest =>
    match childLookup t.children c with
    | none => False
    | some child => containsW child rest

/-- Well-formedness of a trie node sitting at path `pre` from the root: a
terminal node records exactly the path leading to it, the children keys are
duplicate-free, and each child is well-formed one character deeper.  Every
trie built by `insert` from the root satisfies `WF t []`. -/
inductive WF : TrieNode α → List α → Prop where
  | node : ∀ (ch : List (α × TrieNode α)) (e : Bool) (wd : Option (List α))
      (pre : List α),
      (e = true → wd = some pre) →
      (ch.map Prod.fst).Nodup →
      (∀ c t, (c, t) ∈ ch → WF t (pre ++ [c])) →
      WF (.mk ch e wd) pre

/-! ## Concrete data for the witnesses and counterexamples -/

def exUser : UserDetails := ⟨"Asha", "Rao", "asha@x.io", none⟩

def exPassengers : List PassengerInput := [⟨"Asha", "Rao", 30⟩, ⟨"Ira", "Rao", 28⟩]

/-- Two legs with 3 seats each, empty remaining tables. -/
def exState2 : DBState Nat :=
  ⟨[⟨1, 0, 1, 100, 3⟩, ⟨2, 1, 0, 100, 3⟩], [], [], [], [], 1, 1⟩

/-- A leg A→B with 5 seats and a leg B→C with 0 seats. -/
def cexFlightsPartial : List (Flight Nat) := [⟨1, 0, 1, 100, 5⟩, ⟨2, 1, 2, 50, 0⟩]

/-- One leg with 7 seats, a CONFIRMED booking 7 that deducted 3 seats. -/
def exStateBooked : DBState Nat :=
  ⟨[⟨1, 0, 1, 100, 7⟩], [⟨1, "Asha", "Rao", "asha@x.io"⟩],
   [⟨7, 1, 100, "CONFIRMED", none⟩], [], [⟨7, 1, 3⟩], 2, 8⟩

/-- The §8 end-to-end scenario: A=0, B=1, C=2, D=3 with prices
A→B=100, B→D=50, A→C=60, C→D=60, all legs available. -/
def exFlights6 : List (Flight Nat) :=
  [⟨1, 0, 1, 100, 5⟩, ⟨2, 1, 3, 50, 5⟩, ⟨3, 0, 2, 60, 5⟩, ⟨4, 2, 3, 60, 5⟩]

def exGraph6 : Graph Nat := build_graph [(0, 1), (1, 3), (0, 2), (2, 3)]

/-- The same scenario with one outgoing edge added at D, so that D occurs
as a dict key. -/
def exGraph6Aug : Graph Nat := build_graph [(0, 1), (1, 3), (0, 2), (2, 3), (3, 4)]

/-! # Theorems -/

/-! ## C10: short routes succeed without touching the datastore -/

/-- C10: for a route of length < 2 (including the empty route) and for a
missing route, `get_flight_details_for_route` returns the empty leg list,
total 0 and `ok = true`; the result does not depend on the flights table. -/
theorem short_route_returns_ok_without_datastore (flights : List (Flight α))
    (r : List α) (h : r.length < 2) :
    get_flight_details_for_route flights (some r) = ([], 0, true) ∧
    get_flight_details_for_route flights none = ([], 0, true) := by
  refine ⟨?_, rfl⟩
  simp [get_flight_details_for_route, getFlightDetails, h]

/-- C10 witness: the one-airport route `[0]` and the missing route, on a
non-empty flights table. -/
theorem short_route_returns_ok_without_datastore_witness :
    get_flight_details_for_route cexFlightsPartial (some [(0 : Nat)]) = ([], 0, true) ∧
    get_flight_details_for_route cexFlightsPartial (none : Option (List Nat)) = ([], 0, true) :=
  short_route_returns_ok_without_datastore cexFlightsPartial [0] (by decide)

/-! ## C6: the §8 end-to-end cheapest-route scenario -/

/-- C6 counterexample: on the exact scenario graph {A→B, B→D, A→C, C→D},
`find_cheapest_route(A, D)` returns `(None, 0)` — D never occurs as an
origin, so the `destination not in graph` membership test fails — and not
the route [A, C, D] with total 120 the claim requires. -/
theorem find_cheapest_route_scenario_cex :
    find_cheapest_route exFlights6 exGraph6 0 3 3 = (none, 0) ∧
    ((none, 0) : Option (List Nat) × Nat) ≠ (some [0, 2, 3], 120) := by decide

/-- C6 amended: once D occurs as a dict key (here via an added edge D→E,
which does not change any path from A to D), the scenario behaves as the
claim states: the result is [A, C, D] with total 120, not [A, B, D]. -/
theorem find_cheapest_route_scenario_with_dest_key :
    find_cheapest_route exFlights6 exGraph6Aug 0 3 3 = (some [0, 2, 3], 120) := by decide

/-! ## C4: re-cancelling an already-CANCELLED booking -/

/-- C4: the code has no status guard, so cancelling booking 7 twice credits
the 3 recorded passengers back twice: 7 → 10 → 13 seats, with the second
call still reporting success — the claim requires the second call to be
rejected or a no-op. -/
theorem double_cancellation_recredits_seats :
    seatsOf (cancel_booking_in_db 7 exStateBooked).2.flights 1 = some 10 ∧
    statusOf (cancel_booking_in_db 7 exStateBooked).2.bookings 7 = some "CANCELLED" ∧
    (cancel_booking_in_db 7 (cancel_booking_in_db 7 exStateBooked).2).1 = true ∧
    seatsOf (cancel_booking_in_db 7
      (cancel_booking_in_db 7 exStateBooked).2).2.flights 1 = some 13 := by decide

/-! ## C8: the order in which `save_booking` locks and verifies legs -/

/-- C8 counterexample: with both legs available, passing the itinerary
`[2, 1]` makes `save_booking` lock and verify leg 2 before leg 1 — the
locking order is not ascending. -/
theorem lock_order_not_ascending_cex :
    (verifyLegs exState2.flights 1 [2, 1]).1 = [2, 1] ∧
    (verifyLegs exState2.flights 1 [2, 1]).2 = true ∧
    ¬ List.Sorted (· ≤ ·) [2, 1] ∧
    List.Sorted (· ≤ ·) [1, 2] := by decide

/-- C8 amended: the legs are locked and verified exactly in the order the
flight ids appear in the itinerary list (here: when every check passes, so
the loop runs to completion), not in a sorted order. -/
theorem lock_order_is_itinerary_order (st : DBState α) (numPax : Nat)
    (fids : List Nat) (h : ∀ fid ∈ fids, legOk st.flights numPax fid = true) :
    (verifyLegs st.flights numPax fids).1 = fids := by
  induction fids with
  | nil => rfl
  | cons fid rest ih =>
    have hfid := h fid (by simp)
    unfold verifyLegs
    unfold legOk at hfid
    cases hs : seatsOf st.flights fid with
    | none => rw [hs] at hfid; simp at hfid
    | some s =>
      rw [hs] at hfid
      simp only [decide_eq_true_eq] at hfid
      simp only [hs, if_neg hfid]
      have := ih (fun f hf => h f (by simp [hf]))
      simp [this]

/-- C8 witness: the itinerary `[2, 1]` is locked in exactly that order. -/
theorem lock_order_is_itinerary_order_witness :
    (verifyLegs exState2.flights 1 [2, 1]).1 = [2, 1] :=
  lock_order_is_itinerary_order exState2 1 [2, 1] (by decide)

/-! ## C2: the resolver on a route with an unservable segment -/

/-- Searching the bulk query's rows for one of the route's own pairs gives
the same first row as searching the whole table. -/
theorem findLeg_routeQuery (flights : List (Flight α)) (r : List α)
    (o d : α) (hp : (o, d) ∈ routePairs r) :
    findLeg (routeQuery flights r) o d = findLeg flights o d := by
  induction flights with
  | nil => rfl
  | cons f rest ih =>
    rw [routeQuery, List.filter_cons]
    by_cases hf : f.origin = o ∧ f.destination = d
    · have hany : ((routePairs r).any
          fun p => decide (f.origin = p.1) && decide (f.destination = p.2)) = true := by
        rw [List.any_eq_true]
        exact ⟨(o, d), hp, by simp [hf.1, hf.2]⟩
      rw [if_pos hany, findLeg, findLeg, if_pos hf, if_pos hf]
    · rw [findLeg, if_neg hf]
      by_cases hc : ((routePairs r).any
          fun p => decide (f.origin = p.1) && decide (f.destination = p.2)) = true
      · rw [if_pos hc, findLeg, if_neg hf]
        exact ih
      · rw [if_neg hc]
        exact ih

/-- If some pair of the processed list fails the resolver's criterion, the
segment loop ends with `ok = false`. -/
theorem resolveLoop_not_ok (flights : List (Flight α)) (r : List α)
    (ps : List (α × α)) (acc : List (Flight α)) (tot : Nat)
    (hsub : ∀ p ∈ ps, p ∈ routePairs r)
    (hbad : ∃ p ∈ ps, segmentFails flights p = true) :
    (resolveLoop (routeQuery flights r) ps acc tot).2.2 = false := by
  induction ps generalizing acc tot with
  | nil => simp at hbad
  | cons p rest ih =>
    obtain ⟨o, d⟩ := p
    have hq := findLeg_routeQuery flights r o d (hsub _ (by simp))
    rw [resolveLoop, hq]
    by_cases hfail : segmentFails flights (o, d) = true
    · unfold segmentFails at hfail
      cases hl : findLeg flights o d with
      | none => simp
      | some f =>
        rw [hl] at hfail
        simp only [decide_eq_true_eq] at hfail
        simp [hfail]
    · unfold segmentFails at hfail
      cases hl : findLeg flights o d with
      | none => rfl
      | some f =>
        rw [hl] at hfail
        simp only [decide_eq_true_eq] at hfail
        simp only [if_neg hfail]
        have hrest : ∃ p ∈ rest, segmentFails flights p = true := by
          rcases hbad with ⟨q, hq1, hq2⟩
          rcases List.mem_cons.mp hq1 with h | h
          · subst h; exact absurd hq2 (by unfold segmentFails; rw [hl]; simpa using hfail)
          · exact ⟨q, h, hq2⟩
        exact ih _ _ (fun q hq' => hsub q (by simp [hq'])) hrest

/-- C2 counterexample: on the route [A, B, C] with A→B available (price 100)
and B→C present but with zero seats, the resolver returns the partial
one-leg list `[A→B]` with partial total 100 (and `ok = false`) — not the
empty list and zero total the claim requires. -/
theorem resolver_partial_result_cex :
    getFlightDetails cexFlightsPartial [0, 1, 2]
      = ([⟨1, 0, 1, 100, 5⟩], 100, false) ∧
    ([(⟨1, 0, 1, 100, 5⟩ : Flight Nat)], 100) ≠ (([] : List (Flight Nat)), 0) := by decide

/-- C2 amended: whenever some consecutive pair cannot be served (no row, or
its first row has zero seats), the resolver reports `ok = false`; but the
returned legs and total may be the partial prefix resolved before the
failing pair — the result is exactly `([], 0, false)` only when the bulk
query returns fewer rows than the route has segments. -/
theorem resolver_not_ok_on_unservable_pair (flights : List (Flight α))
    (r : List α) (h2 : 2 ≤ r.length) :
    ((∃ p ∈ routePairs r, segmentFails flights p = true) →
      (getFlightDetails flights r).2.2 = false) ∧
    ((routeQuery flights r).length < r.length - 1 →
      getFlightDetails flights r = ([], 0, false)) := by
  have hlt : ¬ r.length < 2 := by omega
  constructor
  · intro hbad
    rw [getFlightDetails, if_neg hlt]
    by_cases hdf : (routeQuery flights r).length < r.length - 1
    · simp [hdf]
    · simp only [hdf, if_false]
      exact resolveLoop_not_ok flights r (routePairs r) [] 0 (fun p hp => hp) hbad
  · intro hdf
    rw [getFlightDetails, if_neg hlt]
    simp [hdf]

/-- C2 witness: the concrete route [A, B, C] above has an unservable pair,
so the resolver reports failure. -/
theorem resolver_not_ok_on_unservable_pair_witness :
    (getFlightDetails cexFlightsPartial [0, 1, 2]).2.2 = false :=
  (resolver_not_ok_on_unservable_pair cexFlightsPartial [0, 1, 2] (by decide)).1
    (by decide)

/-! ## C1: the `save_booking` transaction -/

/-- The verification loop passes iff every listed leg passes its check. -/
theorem verifyLegs_ok_iff (flights : List (Flight α)) (numPax : Nat)
    (fids : List Nat) :
    (verifyLegs flights numPax fids).2 = true ↔
      ∀ fid ∈ fids, legOk flights numPax fid = true := by
  induction fids with
  | nil => simp [verifyLegs]
  | cons fid rest ih =>
    rw [verifyLegs]
    cases hs : seatsOf flights fid with
    | none =>
      simp only [List.mem_cons]
      constructor
      · intro h; exact absurd h (by simp)
      · intro h
        have := h fid (Or.inl rfl)
        rw [legOk, hs] at this
        exact absurd this (by simp)
    | some s =>
      by_cases hlt : s < (numPax : Int)
      · simp only [if_pos hlt]
        constructor
        · intro h; exact absurd h (by simp)
        · intro h
          have := h fid (by simp)
          rw [legOk, hs] at this
          simp only [decide_eq_true_eq] at this
          exact absurd hlt this
      · simp only [if_neg hlt]
        rw [ih]
        constructor
        · intro h g hg
          rcases List.mem_cons.mp hg with h1 | h1
          · subst h1; rw [legOk, hs]; simpa using hlt
          · exact h g h1
        · intro h g hg
          exact h g (by simp [hg])

/-- The decrement loop subtracts `n` once per occurrence of the leg's id in
the itinerary list. -/
theorem applyDecrements_eq_map (flights : List (Flight α)) (fids : List Nat)
    (n : Nat) :
    applyDecrements flights fids n = flights.map fun f =>
      { f with available_seats :=
          f.available_seats - (n : Int) * (fids.count f.flight_id) } := by
  induction fids generalizing flights with
  | nil =>
    rw [applyDecrements, List.foldl_nil]
    refine (List.map_id flights).symm.trans (List.map_congr_left ?_)
    intro f _
    simp
  | cons fid rest ih =>
    have h1 : applyDecrements flights (fid :: rest) n
        = applyDecrements (decrementSeats flights fid n) rest n := rfl
    rw [h1, ih, decrementSeats, List.map_map]
    refine List.map_congr_left ?_
    intro f _
    simp only [Function.comp_apply]
    by_cases hid : f.flight_id = fid
    · subst hid
      simp only [if_pos rfl]
      rw [List.count_cons_self]
      simp only [Flight.mk.injEq]
      refine ⟨rfl, rfl, rfl, rfl, ?_⟩
      push_cast
      ring
    · rw [if_neg hid]
      rw [List.count_cons_of_ne hid]

/-- With no repeated itinerary entry, the decrement loop subtracts `n` from
exactly the referenced legs. -/
theorem applyDecrements_nodup (flights : List (Flight α)) (fids : List Nat)
    (n : Nat) (hnd : fids.Nodup) :
    applyDecrements flights fids n = flights.map fun f =>
      if f.flight_id ∈ fids then
        { f with available_seats := f.available_seats - (n : Int) } else f := by
  rw [applyDecrements_eq_map]
  refine List.map_congr_left ?_
  intro f _
  by_cases hm : f.flight_id ∈ fids
  · rw [if_pos hm, List.count_eq_one_of_mem hnd hm]
    simp
  · rw [if_neg hm, List.count_eq_zero_of_not_mem hm]
    simp

/-- C1 counterexample: the chain itinerary `[1, 2, 1]` (leg 1 = A→B,
leg 2 = B→A, then leg 1 again) with 2 passengers and 3 seats on each leg.
No referenced leg has fewer seats than passengers, yet the booking commits
and leaves leg 1 with −1 seats instead of 3 − 2 = 1: the claim's success
branch (every referenced flight decremented by the passenger count, seats
staying consistent) fails on itineraries that repeat a leg. -/
theorem save_booking_duplicate_ids_cex :
    (∀ fid ∈ [1, 2, 1], legOk exState2.flights 2 fid = true) ∧
    (save_booking exUser exPassengers [1, 2, 1] 250 exState2).1
      = (some 1, "Booking successful!") ∧
    seatsOf (save_booking exUser exPassengers [1, 2, 1] 250 exState2).2.flights 1
      = some (-1) ∧
    some (-1) ≠ some ((3 : Int) - 2) := by decide

/-- C1 amended: for itineraries with no repeated flight id, `save_booking`
is all-or-nothing exactly as claimed: when some referenced leg is missing
or has fewer seats than passengers it returns a null id with the
insufficient-seats message and the state unchanged; otherwise it
decrements each referenced leg by the passenger count, creates-or-reuses
the user row, and appends the CONFIRMED booking header, the passenger rows
and the leg-association rows, all in one committed state.  (With a
repeated id, each occurrence is decremented separately, as the
counterexample shows.) -/
theorem save_booking_contract (ud : UserDetails) (pl : List PassengerInput)
    (fids : List Nat) (tp : Nat) (st : DBState α) (hnd : fids.Nodup) :
    (¬ (∀ fid ∈ fids, legOk st.flights pl.length fid = true) →
      save_booking ud pl fids tp st = ((none, "Not enough seats"), st)) ∧
    ((∀ fid ∈ fids, legOk st.flights pl.length fid = true) →
      save_booking ud pl fids tp st =
        ((some st.nextBookingId, "Booking successful!"),
         { flights := st.flights.map fun f =>
             if f.flight_id ∈ fids then
               { f with available_seats := f.available_seats - (pl.length : Int) }
             else f
           users := (upsertUser st.users st.nextUserId ud).2.1
           bookings := st.bookings ++
             [⟨st.nextBookingId, (upsertUser st.users st.nextUserId ud).1, tp,
               "CONFIRMED", ud.travel_purpose⟩]
           passengers := st.passengers ++
             pl.map (fun p => ⟨st.nextBookingId, p.first_name, p.last_name, p.age⟩)
           booking_flights := st.booking_flights ++
             fids.map (fun fid => ⟨st.nextBookingId, fid, pl.length⟩)
           nextUserId := (upsertUser st.users st.nextUserId ud).2.2
           nextBookingId := st.nextBookingId + 1 })) := by
  constructor
  · intro hbad
    have hv : (verifyLegs st.flights pl.length fids).2 = false := by
      rcases h : (verifyLegs st.flights pl.length fids).2 with _ | _
      · rfl
      · exact absurd ((verifyLegs_ok_iff st.flights pl.length fids).mp h) hbad
    rw [save_booking, if_pos hv]
  · intro hok
    have hv : ¬ (verifyLegs st.flights pl.length fids).2 = false := by
      rw [(verifyLegs_ok_iff st.flights pl.length fids).mpr hok]
      simp
    rw [save_booking, if_neg hv]
    rw [applyDecrements_nodup st.flights fids pl.length hnd]

/-- C1 witness: booking the distinct itinerary [1, 2] for 2 passengers on
legs with 3 seats each commits and leaves 1 seat on each leg. -/
theorem save_booking_contract_witness :
    save_booking exUser exPassengers [1, 2] 250 exState2 =
      ((some exState2.nextBookingId, "Booking successful!"),
       { flights := exState2.flights.map fun f =>
           if f.flight_id ∈ [1, 2] then
             { f with available_seats :=
                 f.available_seats - (exPassengers.length : Int) }
           else f
         users := (upsertUser exState2.users exState2.nextUserId exUser).2.1
         bookings := exState2.bookings ++
           [⟨exState2.nextBookingId,
             (upsertUser exState2.users exState2.nextUserId exUser).1, 250,
             "CONFIRMED", exUser.travel_purpose⟩]
         passengers := exState2.passengers ++
           exPassengers.map
             (fun p => ⟨exState2.nextBookingId, p.first_name, p.last_name, p.age⟩)
         booking_flights := exState2.booking_flights ++
           [1, 2].map (fun fid => ⟨exState2.nextBookingId, fid, exPassengers.length⟩)
         nextUserId := (upsertUser exState2.users exState2.nextUserId exUser).2.2
         nextBookingId := exState2.nextBookingId + 1 }) :=
  (save_booking_contract exUser exPassengers [1, 2] 250 exState2 (by decide)).2
    (by decide)

/-! ## C3: cancellation restores exactly what booking deducted -/

/-- Splitting off the first association row's credit. -/
theorem creditFor_cons (r : BookingFlightRow) (rest : List BookingFlightRow)
    (fid : Nat) :
    creditFor (r :: rest) fid =
      (if r.flight_id = fid then r.num_passengers else 0) + creditFor rest fid := by
  by_cases h : r.flight_id = fid
  · simp [creditFor, List.filter_cons, h]
  · simp [creditFor, List.filter_cons, h]

/-- The cancellation loop adds, to every flight, the total passenger count
the processed association rows record for it. -/
theorem foldl_increments_eq_map (rows : List BookingFlightRow)
    (flights : List (Flight α)) :
    rows.foldl (fun fs r => incrementSeats fs r.flight_id r.num_passengers) flights
      = flights.map fun f =>
          { f with available_seats :=
              f.available_seats + (creditFor rows f.flight_id : Int) } := by
  induction rows generalizing flights with
  | nil =>
    rw [List.foldl_nil]
    refine (List.map_id flights).symm.trans (List.map_congr_left ?_)
    intro f _
    simp [creditFor]
  | cons r rest ih =>
    rw [List.foldl_cons, ih, incrementSeats, List.map_map]
    refine List.map_congr_left ?_
    intro f _
    simp only [Function.comp_apply]
    by_cases hid : f.flight_id = r.flight_id
    · rw [if_pos hid, creditFor_cons, if_pos hid.symm]
      congr 1
      push_cast
      ring
    · rw [if_neg hid, creditFor_cons, if_neg (fun h => hid h.symm)]
      simp

/-- The leg-association rows `save_booking` writes credit `numPax` once per
occurrence of a leg in the itinerary. -/
theorem creditFor_map_fids (fids : List Nat) (bid n x : Nat) :
    creditFor (fids.map fun fid => ⟨bid, fid, n⟩) x = n * fids.count x := by
  induction fids with
  | nil => simp [creditFor]
  | cons fid rest ih =>
    rw [List.map_cons, creditFor_cons, ih]
    by_cases h : fid = x
    · subst h
      rw [List.count_cons_self, if_pos rfl]
      ring
    · rw [List.count_cons_of_ne (fun hc => h hc.symm), if_neg h]
      simp

/-- Rows whose booking id differs from the queried one never contribute to
`statusOf`. -/
theorem statusOf_append_of_ne (bs rest : List BookingRow) (bid : Nat)
    (h : ∀ b ∈ bs, b.booking_id ≠ bid) :
    statusOf (bs ++ rest) bid = statusOf rest bid := by
  induction bs with
  | nil => rfl
  | cons b tail ih =>
    rw [List.cons_append, statusOf, if_neg (h b (by simp))]
    exact ih (fun x hx => h x (by simp [hx]))

/-- Cancelling flips the status of the (unique, freshly appended) booking
row with the cancelled id. -/
theorem statusOf_cancel (bs : List BookingRow) (row : BookingRow) (bid : Nat)
    (hrow : row.booking_id = bid) (h : ∀ b ∈ bs, b.booking_id ≠ bid) :
    statusOf ((bs ++ [row]).map fun b =>
        if b.booking_id = bid then { b with status := "CANCELLED" } else b) bid
      = some "CANCELLED" := by
  rw [List.map_append, List.map_cons, List.map_nil, if_pos hrow]
  rw [statusOf_append_of_ne _ _ _ (fun b hb => by
    rcases List.mem_map.mp hb with ⟨b0, hb0, rfl⟩
    rw [if_neg (h b0 hb0)]
    exact h b0 hb0)]
  rw [statusOf, if_pos hrow]

/-- C3: a cancellation credits every leg with exactly the passenger count
its association rows record and flips the booking's status; consequently a
successful `save_booking` followed immediately by cancelling the returned
booking id restores every leg's `available_seats` to its pre-booking value
(on a well-formed state: existing booking and association rows use ids
below the next booking id). -/
theorem book_then_cancel_restores_inventory (ud : UserDetails)
    (pl : List PassengerInput) (fids : List Nat) (tp : Nat) (st : DBState α)
    (hrows : ∀ r ∈ st.booking_flights, r.booking_id < st.nextBookingId)
    (hbks : ∀ b ∈ st.bookings, b.booking_id < st.nextBookingId)
    (hok : ∀ fid ∈ fids, legOk st.flights pl.length fid = true) :
    (∀ st2 : DBState α, ∀ b : Nat,
      (cancel_booking_in_db b st2).1 = true ∧
      (cancel_booking_in_db b st2).2.flights = st2.flights.map fun f =>
        { f with available_seats := f.available_seats +
            (creditFor (st2.booking_flights.filter
              fun r => decide (r.booking_id = b)) f.flight_id : Int) }) ∧
    (save_booking ud pl fids tp st).1.1 = some st.nextBookingId ∧
    (cancel_booking_in_db st.nextBookingId
      (save_booking ud pl fids tp st).2).2.flights = st.flights ∧
    statusOf (cancel_booking_in_db st.nextBookingId
        (save_booking ud pl fids tp st).2).2.bookings st.nextBookingId
      = some "CANCELLED" := by
  have hv : ¬ (verifyLegs st.flights pl.length fids).2 = false := by
    rw [(verifyLegs_ok_iff st.flights pl.length fids).mpr hok]
    simp
  have hsave : save_booking ud pl fids tp st =
      ((some st.nextBookingId, "Booking successful!"),
       { flights := applyDecrements st.flights fids pl.length
         users := (upsertUser st.users st.nextUserId ud).2.1
         bookings := st.bookings ++
           [⟨st.nextBookingId, (upsertUser st.users st.nextUserId ud).1, tp,
             "CONFIRMED", ud.travel_purpose⟩]
         passengers := st.passengers ++
           pl.map (fun p => ⟨st.nextBookingId, p.first_name, p.last_name, p.age⟩)
         booking_flights := st.booking_flights ++
           fids.map (fun fid => ⟨st.nextBookingId, fid, pl.length⟩)
         nextUserId := (upsertUser st.users st.nextUserId ud).2.2
         nextBookingId := st.nextBookingId + 1 }) := by
    rw [save_booking, if_neg hv]
  refine ⟨?_, ?_, ?_, ?_⟩
  · intro st2 b
    exact ⟨rfl, foldl_increments_eq_map _ _⟩
  · rw [hsave]
  · rw [hsave, cancel_booking_in_db]
    have hfilter : (st.booking_flights ++
        fids.map (fun fid => (⟨st.nextBookingId, fid, pl.length⟩ : BookingFlightRow))).filter
          (fun r => decide (r.booking_id = st.nextBookingId))
        = fids.map (fun fid => ⟨st.nextBookingId, fid, pl.length⟩) := by
      rw [List.filter_append]
      rw [List.filter_eq_nil_iff.mpr
        (fun r hr => by simpa using Nat.ne_of_lt (hrows r hr))]
      rw [List.filter_eq_self.mpr (fun r hr => by
        rcases List.mem_map.mp hr with ⟨fid, _, rfl⟩
        simp)]
      simp
    rw [hfilter, foldl_increments_eq_map, applyDecrements_eq_map, List.map_map]
    refine (List.map_congr_left ?_).trans (List.map_id st.flights)
    intro f _
    simp only [Function.comp_apply, creditFor_map_fids]
    show Flight.mk _ _ _ _ _ = f
    congr 1
    push_cast
    ring
  · rw [hsave, cancel_booking_in_db]
    exact statusOf_cancel st.bookings _ st.nextBookingId rfl
      (fun b hb => Nat.ne_of_lt (hbks b hb))

/-- C3 witness: booking [1, 2] for 2 passengers (3 seats each) and then
cancelling booking 1 returns both legs to 3 seats and leaves the booking
CANCELLED. -/
theorem book_then_cancel_restores_inventory_witness :
    (save_booking exUser exPassengers [1, 2] 250 exState2).1.1
      = some exState2.nextBookingId ∧
    (cancel_booking_in_db exState2.nextBookingId
      (save_booking exUser exPassengers [1, 2] 250 exState2).2).2.flights
      = exState2.flights ∧
    statusOf (cancel_booking_in_db exState2.nextBookingId
        (save_booking exUser exPassengers [1, 2] 250 exState2).2).2.bookings
        exState2.nextBookingId
      = some "CANCELLED" :=
  have h := book_then_cancel_restores_inventory exUser exPassengers [1, 2] 250
    exState2 (by decide) (by decide) (by decide)
  ⟨h.2.1, h.2.2.1, h.2.2.2⟩

/-! ## C7: soundness of `find_cheapest_route` results -/

/-- A successful segment loop returns the accumulated legs plus the newly
resolved ones, and its total extends the accumulator by their price sum. -/
theorem resolveLoop_total (df : List (Flight α)) (ps : List (α × α))
    (acc L : List (Flight α)) (tot T : Nat)
    (h : resolveLoop df ps acc tot = (L, T, true)) :
    ∃ L2, L = acc ++ L2 ∧ T = tot + sumPrices L2 := by
  induction ps generalizing acc tot with
  | nil =>
    rw [resolveLoop] at h
    simp only [Prod.mk.injEq] at h
    exact ⟨[], by simp [← h.1], by simp [← h.2.1, sumPrices]⟩
  | cons p rest ih =>
    obtain ⟨o, d⟩ := p
    rw [resolveLoop] at h
    cases hl : findLeg df o d with
    | none => rw [hl] at h; simp at h
    | some f =>
      rw [hl] at h
      dsimp only at h
      by_cases hz : f.available_seats = 0
      · rw [if_pos hz] at h; simp at h
      · rw [if_neg hz] at h
        rcases ih _ _ h with ⟨L2, hL, hT⟩
        refine ⟨f :: L2, by simp [hL], ?_⟩
        have hs : sumPrices (f :: L2) = f.price + sumPrices L2 := by
          simp [sumPrices]
        rw [hT, hs]
        omega

/-- A resolver run that reports `ok = true` has a total equal to the sum of
the returned legs' prices. -/
theorem getFlightDetails_total (flights : List (Flight α)) (r : List α)
    (L : List (Flight α)) (T : Nat)
    (h : getFlightDetails flights r = (L, T, true)) :
    T = sumPrices L := by
  rw [getFlightDetails] at h
  by_cases h2 : r.length < 2
  · rw [if_pos h2] at h
    simp only [Prod.mk.injEq] at h
    rw [← h.2.1, ← h.1]
    simp [sumPrices]
  · rw [if_neg h2] at h
    by_cases hdf : (routeQuery flights r).length < r.length - 1
    · rw [if_pos hdf] at h; simp at h
    · rw [if_neg hdf] at h
      rcases resolveLoop_total _ _ _ _ _ _ h with ⟨L2, hL, hT⟩
      simpa [hL] using hT

/-- Any optimum the bounded depth-first search returns is a duplicate-free
path of at most `maxStops` edges whose recorded price is the resolver's
(successful) total for it. -/
theorem cheapDfs_sound (flights : List (Flight α)) (g : Graph α) (dest : α)
    (maxStops fuel : Nat) (node : α) (path : List α)
    (best : Option (List α × Nat)) (hpath : path.Nodup)
    (hbest : ∀ r p, best = some (r, p) → r.Nodup ∧ r.length - 1 ≤ maxStops ∧
      getFlightDetails flights r = ((getFlightDetails flights r).1, p, true)) :
    ∀ r p, cheapDfs flights g dest maxStops fuel node path best = some (r, p) →
      r.Nodup ∧ r.length - 1 ≤ maxStops ∧
      getFlightDetails flights r = ((getFlightDetails flights r).1, p, true) := by
  induction fuel generalizing node path best with
  | zero => exact hbest
  | succ fuel ih =>
    rw [cheapDfs]
    by_cases hguard : maxStops < path.length - 1
    · rw [if_pos hguard]; exact hbest
    · rw [if_neg hguard]
      by_cases hdest : node = dest
      · rw [if_pos hdest]
        by_cases hupd : ((getFlightDetails flights path).2.2 &&
            betterTotal (getFlightDetails flights path).2.1 best) = true
        · rw [if_pos hupd]
          intro r p hr
          rw [Option.some.injEq, Prod.mk.injEq] at hr
          obtain ⟨rfl, rfl⟩ := hr
          refine ⟨hpath, by omega, ?_⟩
          have hok : (getFlightDetails flights path).2.2 = true := by
            rw [Bool.and_eq_true] at hupd
            exact hupd.1
          have heta : getFlightDetails flights path =
              ((getFlightDetails flights path).1,
               (getFlightDetails flights path).2.1,
               (getFlightDetails flights path).2.2) := rfl
          rw [hok] at heta
          exact heta
        · rw [if_neg hupd]; exact hbest
      · rw [if_neg hdest]
        have haux : ∀ (l : List α) (b : Option (List α × Nat)),
            (∀ r p, b = some (r, p) → r.Nodup ∧ r.length - 1 ≤ maxStops ∧
              getFlightDetails flights r = ((getFlightDetails flights r).1, p, true)) →
            ∀ r p, (l.foldl (fun b nb => if nb ∈ path then b
                else cheapDfs flights g dest maxStops fuel nb (path ++ [nb]) b) b)
              = some (r, p) →
              r.Nodup ∧ r.length - 1 ≤ maxStops ∧
              getFlightDetails flights r = ((getFlightDetails flights r).1, p, true) := by
          intro l
          induction l with
          | nil => intro b hb; exact hb
          | cons nb rest ihl =>
            intro b hb
            rw [List.foldl_cons]
            by_cases hm : nb ∈ path
            · rw [if_pos hm]; exact ihl b hb
            · rw [if_neg hm]
              refine ihl _ ?_
              refine ih nb (path ++ [nb]) b ?_ hb
              rw [List.nodup_append]
              refine ⟨hpath, List.nodup_singleton _, ?_⟩
              intro a ha hb2
              rw [List.mem_singleton] at hb2
              exact hm (hb2 ▸ ha)
        exact haux (adjList g node) best hbest

/-- C7: any route `find_cheapest_route` returns is a simple path (no
repeated airport) with at most `max_stops` edges, and the returned price is
the total the resolver reports for that route — the sum of the resolved
legs' prices — with the resolver succeeding on it. -/
theorem find_cheapest_route_sound (flights : List (Flight α)) (g : Graph α)
    (origin dest : α) (ms : Nat) (r : List α) (p : Nat)
    (h : find_cheapest_route flights g origin dest ms = (some r, p)) :
    r.Nodup ∧ r.length - 1 ≤ ms ∧
    (getFlightDetails flights r).2.2 = true ∧
    (getFlightDetails flights r).2.1 = p ∧
    p = sumPrices (getFlightDetails flights r).1 := by
  rw [find_cheapest_route] at h
  by_cases hkeys : origin ∈ graphKeys g ∧ dest ∈ graphKeys g
  · rw [if_pos hkeys] at h
    cases hc : cheapDfs flights g dest ms (ms + 2) origin [origin] none with
    | none => rw [hc] at h; simp at h
    | some rp =>
      obtain ⟨r0, p0⟩ := rp
      rw [hc] at h
      simp only [Prod.mk.injEq, Option.some.injEq] at h
      obtain ⟨rfl, rfl⟩ := h
      have hsound := cheapDfs_sound flights g dest ms (ms + 2) origin [origin]
        none (by simp) (by intro r p hrp; simp at hrp) r0 p0 hc
      obtain ⟨hnd, hlen, heq⟩ := hsound
      have hok : (getFlightDetails flights r0).2.2 = true := by
        rw [heq]
      have hp : (getFlightDetails flights r0).2.1 = p0 := by
        conv_lhs => rw [heq]
      refine ⟨hnd, hlen, hok, hp, ?_⟩
      have := getFlightDetails_total flights r0 (getFlightDetails flights r0).1 p0 heq
      exact this
  · rw [if_neg hkeys] at h
    simp at h

/-- C7 witness: on the §8 scenario (with D keyed), the returned route
[A, C, D] is simple, has 2 ≤ 3 edges, and its price 120 is the resolver's
total, the sum of the two resolved legs' prices. -/
theorem find_cheapest_route_sound_witness :
    ([0, 2, 3] : List Nat).Nodup ∧ ([0, 2, 3] : List Nat).length - 1 ≤ 3 ∧
    (getFlightDetails exFlights6 [0, 2, 3]).2.2 = true ∧
    (getFlightDetails exFlights6 [0, 2, 3]).2.1 = 120 ∧
    120 = sumPrices (getFlightDetails exFlights6 [0, 2, 3]).1 :=
  find_cheapest_route_sound exFlights6 exGraph6Aug 0 3 3 [0, 2, 3] 120 (by decide)

/-! ## C9: exactness of the trie suggestions -/

theorem containsW_nil_iff (ch : List (α × TrieNode α)) (e : Bool)
    (wd : Option (List α)) :
    containsW (.mk ch e wd) ([] : List α) ↔ e = true := Iff.rfl

theorem containsW_cons_iff (ch : List (α × TrieNode α)) (e : Bool)
    (wd : Option (List α)) (c : α) (s : List α) :
    containsW (.mk ch e wd) (c :: s) ↔
      ∃ tc, childLookup ch c = some tc ∧ containsW tc s := by
  constructor
  · intro h
    dsimp only [containsW, TrieNode.children] at h
    cases hl : childLookup ch c with
    | none => rw [hl] at h; exact (h : False).elim
    | some tc => rw [hl] at h; exact ⟨tc, rfl, h⟩
  · rintro ⟨tc, hl, h⟩
    dsimp only [containsW, TrieNode.children]
    rw [hl]
    exact h

theorem childLookup_none_iff (ch : List (α × TrieNode α)) (c : α) :
    childLookup ch c = none ↔ c ∉ ch.map Prod.fst := by
  induction ch with
  | nil => simp [childLookup]
  | cons p rest ih =>
    obtain ⟨c0, t0⟩ := p
    by_cases h : c0 = c
    · subst h
      simp [childLookup]
    · rw [childLookup, if_neg h]
      simp only [List.map_cons, List.mem_cons]
      rw [ih]
      constructor
      · intro hn hc
        rcases hc with hc | hc
        · exact h hc.symm
        · exact hn hc
      · intro hn
        exact fun hc => hn (Or.inr hc)

theorem childLookup_mem (ch : List (α × TrieNode α)) (c : α) (t : TrieNode α)
    (h : childLookup ch c = some t) : (c, t) ∈ ch := by
  induction ch with
  | nil => simp [childLookup] at h
  | cons p rest ih =>
    obtain ⟨c0, t0⟩ := p
    by_cases hc : c0 = c
    · subst hc
      rw [childLookup, if_pos rfl] at h
      obtain rfl : t0 = t := by injection h
      exact List.mem_cons_self _ _
    · rw [childLookup, if_neg hc] at h
      exact List.mem_cons_of_mem _ (ih h)

theorem childLookup_of_mem_nodup (ch : List (α × TrieNode α)) (c : α)
    (t : TrieNode α) (hnd : (ch.map Prod.fst).Nodup) (h : (c, t) ∈ ch) :
    childLookup ch c = some t := by
  induction ch with
  | nil => simp at h
  | cons p rest ih =>
    obtain ⟨c0, t0⟩ := p
    rcases List.mem_cons.mp h with h0 | h0
    · obtain ⟨rfl, rfl⟩ : c0 = c ∧ t0 = t := by
        constructor <;> [exact congrArg Prod.fst h0.symm; exact congrArg Prod.snd h0.symm]
      rw [childLookup, if_pos rfl]
    · have hne : c0 ≠ c := by
        intro hc
        subst hc
        exact (List.nodup_cons.mp hnd).1 (List.mem_map.mpr ⟨(c0, t), h0, rfl⟩)
      rw [childLookup, if_neg hne]
      exact ih (List.nodup_cons.mp hnd).2 h0

theorem childUpdate_keys (x : α) (tN : TrieNode α) (ch : List (α × TrieNode α)) :
    (childUpdate x tN ch).map Prod.fst = ch.map Prod.fst := by
  induction ch with
  | nil => rfl
  | cons p rest ih =>
    obtain ⟨c0, t0⟩ := p
    by_cases h : c0 = x
    · rw [childUpdate, if_pos h]
      simp [h]
    · rw [childUpdate, if_neg h]
      simp [ih]

theorem mem_childUpdate (x : α) (tN : TrieNode α) (ch : List (α × TrieNode α))
    (c : α) (t : TrieNode α) (h : (c, t) ∈ childUpdate x tN ch) :
    (c, t) ∈ ch ∨ (c = x ∧ t = tN) := by
  induction ch with
  | nil => simp [childUpdate] at h
  | cons p rest ih =>
    obtain ⟨c0, t0⟩ := p
    by_cases h0 : c0 = x
    · rw [childUpdate, if_pos h0] at h
      rcases List.mem_cons.mp h with h1 | h1
      · injection h1 with hc ht
        exact Or.inr ⟨hc.trans h0, ht⟩
      · exact Or.inl (List.mem_cons_of_mem _ h1)
    · rw [childUpdate, if_neg h0] at h
      rcases List.mem_cons.mp h with h1 | h1
      · exact Or.inl (h1 ▸ List.mem_cons_self _ _)
      · rcases ih h1 with h2 | h2
        · exact Or.inl (List.mem_cons_of_mem _ h2)
        · exact Or.inr h2

theorem childLookup_childUpdate_self (x : α) (tN : TrieNode α)
    (ch : List (α × TrieNode α)) (t0 : TrieNode α)
    (h : childLookup ch x = some t0) :
    childLookup (childUpdate x tN ch) x = some tN := by
  induction ch with
  | nil => simp [childLookup] at h
  | cons p rest ih =>
    obtain ⟨c0, t1⟩ := p
    by_cases h0 : c0 = x
    · rw [childUpdate, if_pos h0, childLookup, if_pos h0]
    · rw [childUpdate, if_neg h0, childLookup, if_neg h0]
      rw [childLookup, if_neg h0] at h
      exact ih h

theorem childLookup_childUpdate_ne (x y : α) (tN : TrieNode α)
    (ch : List (α × TrieNode α)) (h : y ≠ x) :
    childLookup (childUpdate x tN ch) y = childLookup ch y := by
  induction ch with
  | nil => rfl
  | cons p rest ih =>
    obtain ⟨c0, t0⟩ := p
    by_cases h0 : c0 = x
    · rw [childUpdate, if_pos h0]
      have hne : ¬ c0 = y := fun hc => h (hc.symm.trans h0)
      rw [childLookup, if_neg hne, childLookup, if_neg hne]
    · rw [childUpdate, if_neg h0, childLookup, childLookup]
      by_cases h1 : c0 = y
      · rw [if_pos h1, if_pos h1]
      · rw [if_neg h1, if_neg h1]
        exact ih

theorem childLookup_append_of_none (ch ch2 : List (α × TrieNode α)) (y : α)
    (h : childLookup ch y = none) :
    childLookup (ch ++ ch2) y = childLookup ch2 y := by
  induction ch with
  | nil => rfl
  | cons p rest ih =>
    obtain ⟨c0, t0⟩ := p
    by_cases h0 : c0 = y
    · rw [childLookup, if_pos h0] at h
      exact absurd h (by simp)
    · rw [childLookup, if_neg h0] at h
      rw [List.cons_append, childLookup, if_neg h0]
      exact ih h

theorem childLookup_append_of_some (ch ch2 : List (α × TrieNode α)) (y : α)
    (t : TrieNode α) (h : childLookup ch y = some t) :
    childLookup (ch ++ ch2) y = some t := by
  induction ch with
  | nil => simp [childLookup] at h
  | cons p rest ih =>
    obtain ⟨c0, t0⟩ := p
    by_cases h0 : c0 = y
    · rw [childLookup, if_pos h0] at h
      rw [List.cons_append, childLookup, if_pos h0]
      exact h
    · rw [childLookup, if_neg h0] at h
      rw [List.cons_append, childLookup, if_neg h0]
      exact ih h

theorem not_containsW_emptyNode (u : List α) : ¬ containsW (emptyNode : TrieNode α) u := by
  cases u with
  | nil => intro h; exact Bool.false_ne_true (h : false = true)
  | cons c r => intro h; exact (h : False)

theorem WF_emptyNode (pre : List α) : WF (emptyNode : TrieNode α) pre :=
  WF.node [] false none pre (by simp) (by simp) (by simp)

/-- `insert` keeps a trie well-formed: inserting the remaining `suffix` of
the word `w` below a node at path `pre` (so `w = pre ++ suffix`). -/
theorem WF_insertAux (suffix : List α) (w : List α) (t : TrieNode α)
    (pre : List α) (hw : w = pre ++ suffix) (h : WF t pre) :
    WF (insertAux w t suffix) pre := by
  induction suffix generalizing t pre with
  | nil =>
    obtain ⟨ch, e, wd⟩ := t
    cases h with
    | node _ _ _ _ hwd hkeys hch =>
      rw [insertAux]
      refine WF.node ch true (some w) pre ?_ hkeys hch
      intro _
      rw [hw, List.append_nil]
  | cons c rest ih =>
    obtain ⟨ch, e, wd⟩ := t
    cases h with
    | node _ _ _ _ hwd hkeys hch =>
      rw [insertAux]
      cases hl : childLookup ch c with
      | some child =>
        refine WF.node _ e wd pre hwd (by rw [childUpdate_keys]; exact hkeys) ?_
        intro c1 t1 hmem
        rcases mem_childUpdate c (insertAux w child rest) ch c1 t1 hmem with h1 | ⟨hc1, ht1⟩
        · exact hch c1 t1 h1
        · rw [hc1, ht1]
          exact ih child (pre ++ [c]) (by simp [hw])
            (hch c child (childLookup_mem ch c child hl))
      | none =>
        refine WF.node _ e wd pre hwd ?_ ?_
        · rw [List.map_append]
          simp only [List.map_cons, List.map_nil]
          rw [List.nodup_append]
          refine ⟨hkeys, List.nodup_singleton _, ?_⟩
          intro a ha hb
          rw [List.mem_singleton] at hb
          exact (childLookup_none_iff ch c).mp hl (hb ▸ ha)
        · intro c1 t1 hmem
          rcases List.mem_append.mp hmem with h1 | h1
          · exact hch c1 t1 h1
          · rw [List.mem_singleton] at h1
            injection h1 with hc1 ht1
            rw [hc1, ht1]
            exact ih emptyNode (pre ++ [c]) (by simp [hw]) (WF_emptyNode _)

/-- Inserting the suffix `s` below a node makes exactly `s` newly contained
there; every other word's membership is unchanged. -/
theorem containsW_insertAux (s : List α) (w : List α) (t : TrieNode α)
    (u : List α) :
    containsW (insertAux w t s) u ↔ u = s ∨ containsW t u := by
  induction s generalizing t u with
  | nil =>
    obtain ⟨ch, e, wd⟩ := t
    rw [insertAux]
    cases u with
    | nil =>
      rw [containsW_nil_iff, containsW_nil_iff]
      simp
    | cons c r =>
      rw [containsW_cons_iff, containsW_cons_iff]
      simp
  | cons c0 rest ih =>
    obtain ⟨ch, e, wd⟩ := t
    rw [insertAux]
    cases hl : childLookup ch c0 with
    | some child =>
      cases u with
      | nil =>
        rw [containsW_nil_iff, containsW_nil_iff]
        simp
      | cons c r =>
        rw [containsW_cons_iff, containsW_cons_iff]
        by_cases hc : c = c0
        · subst hc
          rw [List.cons.injEq]
          constructor
          · rintro ⟨tc, htc, hcont⟩
            rw [childLookup_childUpdate_self c (insertAux w child rest) ch child hl]
              at htc
            injection htc with htc
            subst htc
            rcases (ih child r).mp hcont with h1 | h1
            · exact Or.inl ⟨rfl, h1⟩
            · exact Or.inr ⟨child, hl, h1⟩
          · rintro (⟨-, hr⟩ | ⟨tc, htc, hcont⟩)
            · rw [hr]
              exact ⟨insertAux w child rest,
                childLookup_childUpdate_self c (insertAux w child rest) ch child hl,
                (ih child rest).mpr (Or.inl rfl)⟩
            · rw [hl] at htc
              injection htc with htc
              rw [← htc] at hcont
              exact ⟨insertAux w child rest,
                childLookup_childUpdate_self c (insertAux w child rest) ch child hl,
                (ih child r).mpr (Or.inr hcont)⟩
        · rw [childLookup_childUpdate_ne c0 c (insertAux w child rest) ch hc]
          constructor
          · rintro ⟨tc, htc, hcont⟩
            exact Or.inr ⟨tc, htc, hcont⟩
          · rintro (h1 | ⟨tc, htc, hcont⟩)
            · exact absurd (List.cons.injEq .. ▸ h1).1 hc
            · exact ⟨tc, htc, hcont⟩
    | none =>
      cases u with
      | nil =>
        rw [containsW_nil_iff, containsW_nil_iff]
        simp
      | cons c r =>
        rw [containsW_cons_iff, containsW_cons_iff]
        by_cases hc : c = c0
        · subst hc
          rw [List.cons.injEq]
          constructor
          · rintro ⟨tc, htc, hcont⟩
            rw [childLookup_append_of_none ch _ c hl] at htc
            rw [childLookup, if_pos rfl] at htc
            injection htc with htc
            subst htc
            rcases (ih emptyNode r).mp hcont with h1 | h1
            · exact Or.inl ⟨rfl, h1⟩
            · exact absurd h1 (not_containsW_emptyNode r)
          · rintro (⟨-, hr⟩ | ⟨tc, htc, hcont⟩)
            · rw [hr]
              refine ⟨insertAux w emptyNode rest, ?_, (ih emptyNode rest).mpr (Or.inl rfl)⟩
              rw [childLookup_append_of_none ch _ c hl]
              rw [childLookup, if_pos rfl]
            · rw [hl] at htc
              exact absurd htc (by simp)
        · constructor
          · rintro ⟨tc, htc, hcont⟩
            cases hl2 : childLookup ch c with
            | some t2 =>
              rw [childLookup_append_of_some ch _ c t2 hl2] at htc
              injection htc with htc
              exact Or.inr ⟨tc, congrArg some htc, hcont⟩
            | none =>
              rw [childLookup_append_of_none ch _ c hl2] at htc
              rw [childLookup, if_neg (fun h => hc h.symm)] at htc
              exact absurd htc (by simp [childLookup])
          · rintro (h1 | ⟨tc, htc, hcont⟩)
            · exact absurd (List.cons.injEq .. ▸ h1).1 hc
            · exact ⟨tc, childLookup_append_of_some ch _ c tc htc, hcont⟩

/-- Membership in the built trie is exactly membership in the inserted
list, whatever the insertion order was. -/
theorem containsW_foldl (ws : List (List α)) (t : TrieNode α) (u : List α) :
    containsW (ws.foldl trieInsert t) u ↔ u ∈ ws ∨ containsW t u := by
  induction ws generalizing t with
  | nil => simp
  | cons w rest ih =>
    rw [List.foldl_cons]
    rw [ih]
    rw [trieInsert, containsW_insertAux]
    simp only [List.mem_cons]
    tauto

theorem containsW_build (ws : List (List α)) (u : List α) :
    containsW (build_airport_trie ws) u ↔ u ∈ ws := by
  rw [build_airport_trie, containsW_foldl]
  simp [not_containsW_emptyNode]

theorem WF_build (ws : List (List α)) : WF (build_airport_trie ws) [] := by
  rw [build_airport_trie]
  have h : ∀ (l : List (List α)) (t : TrieNode α), WF t [] → WF (l.foldl trieInsert t) [] := by
    intro l
    induction l with
    | nil => intro t ht; exact ht
    | cons w rest ih =>
      intro t ht
      rw [List.foldl_cons]
      exact ih _ (WF_insertAux w w t [] rfl ht)
  exact h ws emptyNode (WF_emptyNode [])

theorem mem_collectChildren (u : List α) (ch : List (α × TrieNode α)) :
    u ∈ collectWords.collectChildren ch ↔
      ∃ c t, (c, t) ∈ ch ∧ u ∈ collectWords t := by
  induction ch with
  | nil => simp [collectWords.collectChildren]
  | cons p rest ih =>
    obtain ⟨c0, t0⟩ := p
    rw [collectWords.collectChildren, List.mem_append, ih]
    constructor
    · rintro (h | ⟨c, t, hm, hu⟩)
      · exact ⟨c0, t0, List.mem_cons_self _ _, h⟩
      · exact ⟨c, t, List.mem_cons_of_mem _ hm, hu⟩
    · rintro ⟨c, t, hm, hu⟩
      rcases List.mem_cons.mp hm with h1 | h1
      · injection h1 with hc ht
        exact Or.inl (ht ▸ hu)
      · exact Or.inr ⟨c, t, h1, hu⟩

/-- The words collected below a well-formed node at path `pre` are exactly
`pre ++ s` for the suffixes `s` the subtree contains. -/
theorem mem_collectWords (t : TrieNode α) (pre : List α) (h : WF t pre) :
    ∀ u, u ∈ collectWords t ↔ ∃ s, u = pre ++ s ∧ containsW t s := by
  induction h with
  | node ch e wd pre hwd hkeys hch ih =>
    intro u
    rw [collectWords, List.mem_append]
    constructor
    · rintro (hu | hu)
      · by_cases he : e = true
        · rw [if_pos he, hwd he] at hu
          rw [Option.toList_some, List.mem_singleton] at hu
          exact ⟨[], by simp [hu], by rw [containsW_nil_iff]; exact he⟩
        · rw [if_neg he] at hu
          simp at hu
      · rw [mem_collectChildren] at hu
        obtain ⟨c, tc, hm, hu⟩ := hu
        obtain ⟨s, hus, hcont⟩ := (ih c tc hm u).mp hu
        refine ⟨c :: s, by simp [hus], ?_⟩
        rw [containsW_cons_iff]
        exact ⟨tc, childLookup_of_mem_nodup ch c tc hkeys hm, hcont⟩
    · rintro ⟨s, rfl, hcont⟩
      cases s with
      | nil =>
        rw [containsW_nil_iff] at hcont
        left
        rw [if_pos hcont, hwd hcont]
        simp
      | cons c s2 =>
        rw [containsW_cons_iff] at hcont
        obtain ⟨tc, hl, hcont⟩ := hcont
        right
        rw [mem_collectChildren]
        refine ⟨c, tc, childLookup_mem ch c tc hl, ?_⟩
        rw [ih c tc (childLookup_mem ch c tc hl) (pre ++ c :: s2)]
        exact ⟨s2, by simp, hcont⟩

/-- The collected word list of a well-formed node has no duplicates. -/
theorem collectWords_nodup (t : TrieNode α) (pre : List α) (h : WF t pre) :
    (collectWords t).Nodup := by
  induction h with
  | node ch e wd pre hwd hkeys hch ih =>
    have haux : ∀ (l : List (α × TrieNode α)),
        (∀ c tc, (c, tc) ∈ l → WF tc (pre ++ [c])) →
        (∀ c tc, (c, tc) ∈ l → (collectWords tc).Nodup) →
        ((l.map Prod.fst).Nodup) →
        (collectWords.collectChildren l).Nodup ∧
        (∀ u ∈ collectWords.collectChildren l,
          ∃ c s, c ∈ l.map Prod.fst ∧ u = pre ++ c :: s) := by
      intro l
      induction l with
      | nil =>
        intro _ _ _
        exact ⟨by simp [collectWords.collectChildren], by simp [collectWords.collectChildren]⟩
      | cons q restl ihl =>
        obtain ⟨c0, t0⟩ := q
        intro hwf hnd hkey
        have hkey2 : (c0 :: restl.map Prod.fst).Nodup := by simpa using hkey
        have hk0 : c0 ∉ restl.map Prod.fst := (List.nodup_cons.mp hkey2).1
        have hrest := ihl
          (fun c tc hm => hwf c tc (List.mem_cons_of_mem _ hm))
          (fun c tc hm => hnd c tc (List.mem_cons_of_mem _ hm))
          (List.nodup_cons.mp hkey2).2
        have hshape0 : ∀ u ∈ collectWords t0, ∃ s, u = pre ++ c0 :: s := by
          intro u hu
          obtain ⟨s, hus, -⟩ :=
            (mem_collectWords t0 (pre ++ [c0]) (hwf c0 t0 (List.mem_cons_self _ _)) u).mp hu
          exact ⟨s, by simpa using hus⟩
        rw [collectWords.collectChildren]
        constructor
        · rw [List.nodup_append]
          refine ⟨hnd c0 t0 (List.mem_cons_self _ _), hrest.1, ?_⟩
          intro u hu0 hu1
          obtain ⟨s, rfl⟩ := hshape0 u hu0
          obtain ⟨c, s2, hc, heq⟩ := hrest.2 _ hu1
          have hcc : c0 = c := by
            have := List.append_cancel_left heq
            injection this
          exact hk0 (hcc ▸ hc)
        · intro u hu
          rcases List.mem_append.mp hu with hu | hu
          · obtain ⟨s, rfl⟩ := hshape0 u hu
            exact ⟨c0, s, by simp, rfl⟩
          · obtain ⟨c, s, hc, heq⟩ := hrest.2 _ hu
            exact ⟨c, s, by simp [hc], heq⟩
    have hmain := haux ch hch ih hkeys
    rw [collectWords]
    by_cases he : e = true
    · rw [if_pos he, hwd he, Option.toList_some]
      rw [List.singleton_append, List.nodup_cons]
      refine ⟨?_, hmain.1⟩
      intro hpre
      obtain ⟨c, s, -, heq⟩ := hmain.2 _ hpre
      have := congrArg List.length heq
      simp at this
    · rw [if_neg he]
      rw [List.nil_append]
      exact hmain.1

/-- Walking a query string down a well-formed trie lands on a node that is
well-formed at the extended path. -/
theorem walkTrie_wf (p : List α) : ∀ (t : TrieNode α) (pre : List α), WF t pre →
    ∀ t2, walkTrie t p = some t2 → WF t2 (pre ++ p) := by
  induction p with
  | nil =>
    intro t pre h t2 hw
    rw [walkTrie] at hw
    injection hw with hw
    rw [List.append_nil, ← hw]
    exact h
  | cons c rest ih =>
    intro t pre h t2 hw
    obtain ⟨ch, e, wd⟩ := t
    rw [walkTrie] at hw
    dsimp only [TrieNode.children] at hw
    cases h with
    | node _ _ _ _ hwd hkeys hch =>
      cases hl : childLookup ch c with
      | none =>
        rw [hl] at hw
        exact Option.noConfusion (hw : (none : Option (TrieNode α)) = some t2)
      | some child =>
        rw [hl] at hw
        have := ih child (pre ++ [c]) (hch c child (childLookup_mem ch c child hl)) t2 hw
        simpa [List.append_assoc] using this

/-- Containment of `p ++ s` factors through walking `p` first. -/
theorem containsW_append (p : List α) : ∀ (t : TrieNode α) (s : List α),
    containsW t (p ++ s) ↔ ∃ t2, walkTrie t p = some t2 ∧ containsW t2 s := by
  induction p with
  | nil =>
    intro t s
    simp [walkTrie]
  | cons c rest ih =>
    intro t s
    obtain ⟨ch, e, wd⟩ := t
    rw [List.cons_append, containsW_cons_iff]
    constructor
    · rintro ⟨tc, hl, hcont⟩
      obtain ⟨t2, hw, hc2⟩ := (ih tc s).mp hcont
      refine ⟨t2, ?_, hc2⟩
      rw [walkTrie]
      dsimp only [TrieNode.children]
      rw [hl]
      exact hw
    · rintro ⟨t2, hw, hc2⟩
      rw [walkTrie] at hw
      dsimp only [TrieNode.children] at hw
      cases hl : childLookup ch c with
      | none =>
        rw [hl] at hw
        exact Option.noConfusion (hw : (none : Option (TrieNode α)) = some t2)
      | some tc =>
        rw [hl] at hw
        exact ⟨tc, rfl, (ih tc s).mpr ⟨t2, hw, hc2⟩⟩

/-- C9: for any inserted list of codes, in any order, `get_suggestions`
returns a duplicate-free list holding exactly the inserted codes that have
the query as a prefix; the empty query returns exactly the inserted codes. -/
theorem get_suggestions_exact (ws : List (List α)) (p : List α) :
    (get_suggestions (build_airport_trie ws) p).Nodup ∧
    (∀ u, u ∈ get_suggestions (build_airport_trie ws) p ↔ u ∈ ws ∧ p <+: u) ∧
    (∀ u, u ∈ get_suggestions (build_airport_trie ws) [] ↔ u ∈ ws) := by
  have hwf := WF_build ws
  have hmain : ∀ (q : List α), (get_suggestions (build_airport_trie ws) q).Nodup ∧
      (∀ u, u ∈ get_suggestions (build_airport_trie ws) q ↔ u ∈ ws ∧ q <+: u) := by
    intro q
    rw [get_suggestions]
    cases hw : walkTrie (build_airport_trie ws) q with
    | none =>
      refine ⟨List.nodup_nil, ?_⟩
      intro u
      simp only [List.not_mem_nil, false_iff]
      rintro ⟨hin, s, hs⟩
      have hcont : containsW (build_airport_trie ws) (q ++ s) := by
        rw [hs]
        exact (containsW_build ws u).mpr hin
      obtain ⟨t2, hw2, -⟩ := (containsW_append q (build_airport_trie ws) s).mp hcont
      rw [hw] at hw2
      exact Option.noConfusion hw2
    | some n =>
      have hwfn : WF n q := by
        have := walkTrie_wf q (build_airport_trie ws) [] hwf n hw
        simpa using this
      refine ⟨collectWords_nodup n q hwfn, ?_⟩
      intro u
      rw [mem_collectWords n q hwfn u]
      constructor
      · rintro ⟨s, rfl, hcont⟩
        have : containsW (build_airport_trie ws) (q ++ s) :=
          (containsW_append q (build_airport_trie ws) s).mpr ⟨n, hw, hcont⟩
        exact ⟨(containsW_build ws (q ++ s)).mp this, s, rfl⟩
      · rintro ⟨hin, s, hs⟩
        have hcont : containsW (build_airport_trie ws) (q ++ s) := by
          rw [hs]
          exact (containsW_build ws u).mpr hin
        obtain ⟨t2, hw2, hc2⟩ := (containsW_append q (build_airport_trie ws) s).mp hcont
        rw [hw] at hw2
        injection hw2 with hw2
        rw [← hw2] at hc2
        exact ⟨s, hs.symm, hc2⟩
  refine ⟨(hmain p).1, (hmain p).2, ?_⟩
  intro u
  rw [(hmain []).2 u]
  simp [List.nil_prefix]

/-! ## C5: the breadth-first shortest-path search -/

theorem adjList_subset_targets (g : Graph α) (u x : α) (h : x ∈ adjList g u) :
    x ∈ nodeTargets g := by
  induction g with
  | nil => simp [adjList] at h
  | cons e rest ih =>
    obtain ⟨k, vs⟩ := e
    rw [adjList] at h
    rw [nodeTargets]
    by_cases hk : k = u
    · rw [if_pos hk] at h
      exact List.mem_append_left _ h
    · rw [if_neg hk] at h
      exact List.mem_append_right _ (ih h)

/-- Reversing a queue entry whose head is `v` yields a forward valid path
from the origin to `v`. -/
theorem rpath_reverse_valid (g : Graph α) (o v : α) (rp : List α)
    (h : RPathFrom g o rp) (hv : rp.head? = some v) :
    ValidPath g o v rp.reverse := by
  obtain ⟨hne, hlast, hchain⟩ := h
  refine ⟨?_, ?_, ?_⟩
  · rw [List.head?_reverse]
    exact hlast
  · rw [List.getLast?_reverse]
    exact hv
  · rw [List.chain'_reverse]
    exact hchain

/-- Prepending a neighbour of the endpoint extends a queue entry. -/
theorem rpath_extend (g : Graph α) (o u nb : α) (rp : List α)
    (h : RPathFrom g o rp) (hu : rp.head? = some u) (hnb : nb ∈ adjList g u) :
    RPathFrom g o (nb :: rp) := by
  obtain ⟨hne, hlast, hchain⟩ := h
  refine ⟨by simp, ?_, ?_⟩
  · cases rp with
    | nil => exact absurd rfl hne
    | cons b l => rw [List.getLast?_cons_cons]; exact hlast
  · rw [List.chain'_cons']
    refine ⟨?_, hchain⟩
    intro y hy
    rw [hu, Option.mem_some_iff] at hy
    rw [← hy]
    exact hnb

theorem validPath_ne_nil (g : Graph α) (o v : α) (q : List α)
    (h : ValidPath g o v q) : q ≠ [] := by
  intro hq
  rw [hq] at h
  exact Option.noConfusion (h.1 : (none : Option α) = some o)

/-- A valid path to `v` is the single-vertex path at the origin, or extends
a valid path to some predecessor of `v` by one edge. -/
theorem validPath_cases (g : Graph α) (o v : α) (q : List α)
    (h : ValidPath g o v q) :
    (q = [o] ∧ v = o) ∨
    ∃ q2 u, q = q2 ++ [v] ∧ ValidPath g o u q2 ∧ v ∈ adjList g u ∧
      q.length = q2.length + 1 := by
  obtain ⟨hhead, hlast, hchain⟩ := h
  rcases List.eq_nil_or_concat q with rfl | ⟨L, b, rfl⟩
  · exact absurd hhead (by simp)
  · rw [List.concat_eq_append] at hhead hlast hchain ⊢
    have hb : b = v := by simpa using hlast
    subst hb
    cases L with
    | nil =>
      left
      have hbo : b = o := by simpa using hhead
      rw [hbo]
      exact ⟨rfl, rfl⟩
    | cons a L2 =>
      right
      obtain ⟨hc1, hc2, hc3⟩ := List.chain'_append.mp hchain
      have hglast : (a :: L2).getLast? = some ((a :: L2).getLast (by simp)) :=
        List.getLast?_eq_getLast _ _
      refine ⟨a :: L2, (a :: L2).getLast (by simp), rfl, ⟨?_, hglast, hc1⟩, ?_, by simp⟩
      · rw [List.cons_append] at hhead
        rw [List.head?_cons] at hhead ⊢
        exact hhead
      · exact hc3 _ hglast _ rfl

/-- Once the queue is empty every visited node is fully expanded, so the
visited set is closed under edges and contains every reachable node. -/
theorem validPath_mem_closed (g : Graph α) (o : α) (V : List α)
    (ho : o ∈ V) (hcl : ∀ v ∈ V, ∀ nb ∈ adjList g v, nb ∈ V) :
    ∀ (q : List α) (v : α), ValidPath g o v q → v ∈ V := by
  intro q
  induction q using List.reverseRecOn with
  | nil =>
    intro v h
    exact absurd rfl (validPath_ne_nil g o v [] h)
  | append_singleton L b ih =>
    intro v h
    rcases validPath_cases g o v (L ++ [b]) h with ⟨-, hv⟩ | ⟨q2, u, heq, hvp, hedge, -⟩
    · rw [hv]
      exact ho
    · obtain ⟨hL, -⟩ := List.append_inj' heq.symm rfl
      rw [← hL] at ih
      exact hcl u (ih u hvp) v hedge

theorem expandNode_spec (rp : List α) : ∀ (l : List α) (q : List (List α))
    (v : List α),
    ∃ ns, expandNode rp l (q, v) = (q ++ ns.map (fun x => x :: rp), v ++ ns) ∧
      ns.Nodup ∧ (∀ x ∈ ns, x ∈ l ∧ x ∉ v) ∧ (∀ x ∈ l, x ∈ v ∨ x ∈ ns) := by
  intro l
  induction l with
  | nil =>
    intro q v
    exact ⟨[], by simp [expandNode], by simp, by simp, by simp⟩
  | cons nb rest ih =>
    intro q v
    rw [expandNode]
    by_cases hm : nb ∈ v
    · rw [if_pos hm]
      obtain ⟨ns, he, hnd, hmem, hcov⟩ := ih q v
      refine ⟨ns, he, hnd, ?_, ?_⟩
      · exact fun x hx => ⟨List.mem_cons_of_mem _ (hmem x hx).1, (hmem x hx).2⟩
      · intro x hx
        rcases List.mem_cons.mp hx with rfl | hx2
        · exact Or.inl hm
        · exact hcov x hx2
    · rw [if_neg hm]
      obtain ⟨ns, he, hnd, hmem, hcov⟩ := ih (q ++ [nb :: rp]) (v ++ [nb])
      refine ⟨nb :: ns, ?_, ?_, ?_, ?_⟩
      · rw [he]
        simp [List.append_assoc]
      · rw [List.nodup_cons]
        refine ⟨fun hc => ?_, hnd⟩
        have := (hmem nb hc).2
        simp at this
      · intro x hx
        rcases List.mem_cons.mp hx with rfl | hx2
        · exact ⟨List.mem_cons_self _ _, hm⟩
        · obtain ⟨h1, h2⟩ := hmem x hx2
          exact ⟨List.mem_cons_of_mem _ h1,
            fun hc => h2 (List.mem_append_left _ hc)⟩
      · intro x hx
        rcases List.mem_cons.mp hx with rfl | hx2
        · exact Or.inr (List.mem_cons_self _ _)
        · rcases hcov x hx2 with h1 | h1
          · rcases List.mem_append.mp h1 with h2 | h2
            · exact Or.inl h2
            · rw [List.mem_singleton] at h2
              exact Or.inr (h2 ▸ List.mem_cons_self _ _)
          · exact Or.inr (List.mem_cons_of_mem _ h1)

theorem pairwise_len_map_cons (rp : List α) (l : List α) :
    List.Pairwise (fun a b : List α => a.length ≤ b.length)
      (l.map fun x => x :: rp) := by
  induction l with
  | nil => simp
  | cons x xs ih =>
    rw [List.map_cons, List.pairwise_cons]
    refine ⟨?_, ih⟩
    intro b hb
    obtain ⟨y, -, rfl⟩ := List.mem_map.mp hb
    simp

/-- While the queue's first entry has length `L`, any unvisited node is
only reachable by paths of at least `L + 1` vertices: its predecessor on a
shorter path would be visited and either fully expanded (so the node would
be visited) or pending with a too-short queue entry. -/
theorem unvisited_far (g : Graph α) (o d : α) (rp : List α)
    (Q2 : List (List α)) (V : List α) (inv : BfsInv g o d (rp :: Q2) V) :
    ∀ x, x ∉ V → ∀ q, ValidPath g o x q → rp.length + 1 ≤ q.length := by
  intro x hx q hq
  by_contra hlt
  push_neg at hlt
  rcases Nat.lt_or_ge q.length rp.length with hcase | hcase
  · exact hx (inv.minv rp rfl x q hq hcase)
  · rcases validPath_cases g o x q hq with ⟨-, hxo⟩ | ⟨q2, u, -, hvp, hedge, hlen⟩
    · exact hx (by rw [hxo]; exact inv.origin_mem)
    · have hu : u ∈ V := by
        apply inv.minv rp rfl u q2 hvp
        omega
      rcases inv.expanded u hu with ⟨rq, hrq, hhead⟩ | hfull
      · have h1 := inv.shortest rq hrq u hhead q2 hvp
        have h2 : rp.length ≤ rq.length := by
          rcases List.mem_cons.mp hrq with h3 | hmem2
          · exact h3 ▸ Nat.le_refl _
          · exact (List.pairwise_cons.mp inv.sorted).1 rq hmem2
        omega
      · exact hx (hfull x hedge)

/-- Main correctness of the breadth-first loop: with the invariant and
enough fuel, a returned path is a valid origin-to-destination path of
minimum length, and a `none` answer means no valid path exists at all. -/
theorem bfsLoop_correct (g : Graph α) (o d : α) :
    ∀ (fuel : Nat) (Q : List (List α)) (V : List α), BfsInv g o d Q V →
    Q.length + 2 * ((nodeTargets g).toFinset \ V.toFinset).card < fuel →
    (∀ p, bfsLoop g d fuel Q V = some p →
      ValidPath g o d p ∧ ∀ q, ValidPath g o d q → p.length ≤ q.length) ∧
    (bfsLoop g d fuel Q V = none → ∀ q, ¬ ValidPath g o d q) := by
  intro fuel
  induction fuel with
  | zero =>
    intro Q V inv hfuel
    omega
  | succ fuel ih =>
    intro Q V inv hfuel
    cases Q with
    | nil =>
      constructor
      · intro p hp
        exact Option.noConfusion (hp : (none : Option (List α)) = some p)
      · intro _ q hq
        have hcl : ∀ v ∈ V, ∀ nb ∈ adjList g v, nb ∈ V := by
          intro v hv
          rcases inv.expanded v hv with ⟨rq, hrq, -⟩ | hfull
          · simp at hrq
          · exact hfull
        have hd : d ∈ V := validPath_mem_closed g o V inv.origin_mem hcl q d hq
        obtain ⟨rq, hrq, -⟩ := inv.dest_pending hd
        simp at hrq
    | cons rp Q2 =>
      obtain ⟨hrpath, hrmem⟩ := inv.paths rp (List.mem_cons_self _ _)
      cases rp with
      | nil => exact absurd rfl hrpath.1
      | cons node rpt =>
        have hstep : bfsLoop g d (fuel + 1) ((node :: rpt) :: Q2) V =
            if node = d then some (node :: rpt).reverse
            else bfsLoop g d fuel
              (expandNode (node :: rpt) (adjList g node) (Q2, V)).1
              (expandNode (node :: rpt) (adjList g node) (Q2, V)).2 := rfl
        rw [hstep]
        by_cases hdest : node = d
        · rw [if_pos hdest]
          refine ⟨?_, fun hnone => Option.noConfusion hnone⟩
          intro p hp
          injection hp with hp
          constructor
          · rw [← hp, ← hdest]
            exact rpath_reverse_valid g o node (node :: rpt) hrpath rfl
          · intro q hq
            have hq2 : ValidPath g o node q := by rw [hdest]; exact hq
            have hshort := inv.shortest (node :: rpt) (List.mem_cons_self _ _)
              node rfl q hq2
            rw [← hp]
            simpa using hshort
        · rw [if_neg hdest]
          obtain ⟨ns, hexp, hnd, hmem, hcov⟩ :=
            expandNode_spec (node :: rpt) (adjList g node) Q2 V
          rw [hexp]
          have hkey := unvisited_far g o d (node :: rpt) Q2 V inv
          have hQ2lo : ∀ rq ∈ Q2, (node :: rpt).length ≤ rq.length :=
            (List.pairwise_cons.mp inv.sorted).1
          have hQ2hi : ∀ rq ∈ Q2, rq.length ≤ (node :: rpt).length + 1 :=
            fun rq h => inv.levels _ (List.mem_cons_self _ _) rq
              (List.mem_cons_of_mem _ h)
          have hnewQlo : ∀ rq ∈ Q2 ++ ns.map (fun x => x :: (node :: rpt)),
              (node :: rpt).length ≤ rq.length := by
            intro rq hrq
            rcases List.mem_append.mp hrq with h | h
            · exact hQ2lo rq h
            · obtain ⟨x, -, rfl⟩ := List.mem_map.mp h
              simp
          have hnewQhi : ∀ rq ∈ Q2 ++ ns.map (fun x => x :: (node :: rpt)),
              rq.length ≤ (node :: rpt).length + 1 := by
            intro rq hrq
            rcases List.mem_append.mp hrq with h | h
            · exact hQ2hi rq h
            · obtain ⟨x, -, rfl⟩ := List.mem_map.mp h
              simp
          have inv2 : BfsInv g o d (Q2 ++ ns.map (fun x => x :: (node :: rpt)))
              (V ++ ns) := by
            refine ⟨?_, ?_, ?_, ?_, ?_, ?_, ?_, ?_⟩
            · intro rq hrq
              rcases List.mem_append.mp hrq with h | h
              · obtain ⟨hp1, hm1⟩ := inv.paths rq (List.mem_cons_of_mem _ h)
                exact ⟨hp1, fun x hx => List.mem_append_left _ (hm1 x hx)⟩
              · obtain ⟨x, hxns, rfl⟩ := List.mem_map.mp h
                refine ⟨rpath_extend g o node x (node :: rpt) hrpath rfl
                  (hmem x hxns).1, ?_⟩
                intro y hy
                rcases List.mem_cons.mp hy with h2 | h2
                · rw [h2]
                  exact List.mem_append_right _ hxns
                · exact List.mem_append_left _ (hrmem y h2)
            · rw [List.pairwise_append]
              refine ⟨(List.pairwise_cons.mp inv.sorted).2,
                pairwise_len_map_cons _ _, ?_⟩
              intro a ha b hb
              obtain ⟨x, -, rfl⟩ := List.mem_map.mp hb
              have := hQ2hi a ha
              simpa using this
            · intro a ha b hb
              have h1 := hnewQlo a ha
              have h2 := hnewQhi b hb
              omega
            · intro rq hrq v hv q hq
              rcases List.mem_append.mp hrq with h | h
              · exact inv.shortest rq (List.mem_cons_of_mem _ h) v hv q hq
              · obtain ⟨x, hxns, rfl⟩ := List.mem_map.mp h
                rw [List.head?_cons, Option.some.injEq] at hv
                have hq2 : ValidPath g o x q := by rw [hv]; exact hq
                have := hkey x (hmem x hxns).2 q hq2
                simpa using this
            · intro rq0 hh v q hq hlen
              have hmem0 := List.mem_of_mem_head? hh
              have hhi := hnewQhi rq0 hmem0
              by_cases hvV : v ∈ V
              · exact List.mem_append_left _ hvV
              · have := hkey v hvV q hq
                exact absurd this (by omega)
            · intro v hv
              rcases List.mem_append.mp hv with hvV | hvns
              · rcases inv.expanded v hvV with ⟨rq, hrq, hhead⟩ | hfull
                · rcases List.mem_cons.mp hrq with h3 | h3
                  · right
                    intro nb hnb
                    have hvnode : node = v := by
                      rw [h3] at hhead
                      simpa using hhead
                    rcases hcov nb (by rw [hvnode]; exact hnb) with h4 | h4
                    · exact List.mem_append_left _ h4
                    · exact List.mem_append_right _ h4
                  · exact Or.inl ⟨rq, List.mem_append_left _ h3, hhead⟩
                · exact Or.inr fun nb hnb => List.mem_append_left _ (hfull nb hnb)
              · left
                exact ⟨v :: (node :: rpt),
                  List.mem_append_right _ (List.mem_map.mpr ⟨v, hvns, rfl⟩), rfl⟩
            · exact List.mem_append_left _ inv.origin_mem
            · intro hd
              rcases List.mem_append.mp hd with hdV | hdns
              · obtain ⟨rq, hrq, hhead⟩ := inv.dest_pending hdV
                rcases List.mem_cons.mp hrq with h3 | h3
                · exfalso
                  rw [h3] at hhead
                  exact hdest (by simpa using hhead)
                · exact ⟨rq, List.mem_append_left _ h3, hhead⟩
              · exact ⟨d :: (node :: rpt),
                  List.mem_append_right _ (List.mem_map.mpr ⟨d, hdns, rfl⟩), rfl⟩
          have hsub : ns.toFinset ⊆ (nodeTargets g).toFinset \ V.toFinset := by
            intro x hx
            rw [List.mem_toFinset] at hx
            rw [Finset.mem_sdiff, List.mem_toFinset, List.mem_toFinset]
            exact ⟨adjList_subset_targets g node x (hmem x hx).1, (hmem x hx).2⟩
          have hcard : ((nodeTargets g).toFinset \ (V ++ ns).toFinset).card =
              ((nodeTargets g).toFinset \ V.toFinset).card - ns.length := by
            rw [List.toFinset_append, ← Finset.sup_eq_union, ← sdiff_sdiff]
            rw [Finset.card_sdiff hsub, List.toFinset_card_of_nodup hnd]
          have hle : ns.length ≤ ((nodeTargets g).toFinset \ V.toFinset).card := by
            rw [← List.toFinset_card_of_nodup hnd]
            exact Finset.card_le_card hsub
          have hfuel2 : (Q2 ++ ns.map (fun x => x :: (node :: rpt))).length +
              2 * ((nodeTargets g).toFinset \ (V ++ ns).toFinset).card < fuel := by
            rw [List.length_append, List.length_map, hcard]
            have hq1 : ((node :: rpt) :: Q2).length = Q2.length + 1 := by simp
            rw [hq1] at hfuel
            omega
          exact ih _ _ inv2 hfuel2

/-- The invariant holds initially: queue `[[origin]]`, visited `[origin]`. -/
theorem BfsInv_init (g : Graph α) (o d : α) : BfsInv g o d [[o]] [o] := by
  refine ⟨?_, ?_, ?_, ?_, ?_, ?_, ?_, ?_⟩
  · intro rp hrp
    rw [List.mem_singleton] at hrp
    rw [hrp]
    exact ⟨⟨by simp, by simp, List.chain'_singleton o⟩, by simp⟩
  · simp
  · intro rp hrp rq hrq
    rw [List.mem_singleton] at hrp hrq
    rw [hrp, hrq]
    simp
  · intro rp hrp v hv q hq
    rw [List.mem_singleton] at hrp
    rw [hrp]
    have hne := validPath_ne_nil g o v q hq
    cases q with
    | nil => exact absurd rfl hne
    | cons a l => simp
  · intro rp hh v q hq hlen
    have hrp : rp = [o] := by simpa using hh.symm
    rw [hrp] at hlen
    simp at hlen
    have hne := validPath_ne_nil g o v q hq
    exact absurd hlen hne
  · intro v hv
    rw [List.mem_singleton] at hv
    left
    refine ⟨[o], by simp, ?_⟩
    rw [hv]
    rfl
  · simp
  · intro hd
    rw [List.mem_singleton] at hd
    refine ⟨[o], by simp, ?_⟩
    rw [hd]
    rfl

/-- C5 (amended): on the graph built from any route set, the breadth-first
search returns a valid path of minimum length (vertex count, hence minimum
edge count) whenever it returns a path, and it returns `none` exactly when
the origin or the destination has no outgoing edges (is not a key of the
adjacency dict — so an airport occurring only as a destination counts as
absent, not as present-but-isolated) or the destination is unreachable. -/
theorem bfs_shortest_path_correct (routes : List (α × α)) (o d : α) :
    (∀ p, bfs_shortest_path (build_graph routes) o d = some p →
      ValidPath (build_graph routes) o d p ∧
      ∀ q, ValidPath (build_graph routes) o d q → p.length ≤ q.length) ∧
    (bfs_shortest_path (build_graph routes) o d = none ↔
      o ∉ graphKeys (build_graph routes) ∨ d ∉ graphKeys (build_graph routes) ∨
      ¬ ∃ q, ValidPath (build_graph routes) o d q) := by
  set g := build_graph routes with hg
  have hfuel0 : ([[o]] : List (List α)).length +
      2 * ((nodeTargets g).toFinset \ ([o] : List α).toFinset).card <
      2 + 2 * (nodeTargets g).length := by
    have h1 : ((nodeTargets g).toFinset \ ([o] : List α).toFinset).card ≤
        (nodeTargets g).length := by
      calc ((nodeTargets g).toFinset \ ([o] : List α).toFinset).card
          ≤ (nodeTargets g).toFinset.card := Finset.card_le_card Finset.sdiff_subset
        _ ≤ (nodeTargets g).length := List.toFinset_card_le _
    simp only [List.length_singleton]
    omega
  have hmain := bfsLoop_correct g o d (2 + 2 * (nodeTargets g).length) [[o]] [o]
    (BfsInv_init g o d) hfuel0
  constructor
  · intro p hp
    rw [bfs_shortest_path] at hp
    by_cases hkeys : o ∈ graphKeys g ∧ d ∈ graphKeys g
    · rw [if_pos hkeys] at hp
      exact hmain.1 p hp
    · rw [if_neg hkeys] at hp
      exact Option.noConfusion hp
  · rw [bfs_shortest_path]
    by_cases hkeys : o ∈ graphKeys g ∧ d ∈ graphKeys g
    · rw [if_pos hkeys]
      constructor
      · intro hnone
        exact Or.inr (Or.inr (fun hex => hmain.2 hnone hex.choose hex.choose_spec))
      · intro h
        rcases h with h | h | h
        · exact absurd hkeys.1 h
        · exact absurd hkeys.2 h
        · cases hb : bfsLoop g d (2 + 2 * (nodeTargets g).length) [[o]] [o] with
          | none => rfl
          | some p => exact absurd ⟨p, (hmain.1 p hb).1⟩ h
    · rw [if_neg hkeys]
      constructor
      · intro _
        rw [not_and_or] at hkeys
        rcases hkeys with h | h
        · exact Or.inl h
        · exact Or.inr (Or.inl h)
      · intro _
        rfl

/-- C5 counterexample: on the single route 0→1, airport 1 occurs as a
destination (present-but-isolated per the claim) and is reachable from 0
by the one-edge path [0, 1], yet `bfs_shortest_path` returns `none`: 1 has
no outgoing edges, so the `destination not in graph` key test fails. -/
theorem bfs_destination_only_cex :
    bfs_shortest_path (build_graph [((0 : Nat), 1)]) 0 1 = none ∧
    (1 : Nat) ∈ nodeTargets (build_graph [((0 : Nat), 1)]) ∧
    ValidPath (build_graph [((0 : Nat), 1)]) 0 1 [0, 1] := by
  refine ⟨by decide, by decide, rfl, rfl, ?_⟩
  rw [List.chain'_cons]
  exact ⟨by decide, List.chain'_singleton _⟩

end Airline
